import Mathlib

/-!
Shallow embedding of the `yabel` bencode codec (src/src/decode.rs,
src/src/encode.rs, src/src/items.rs, src/src/error.rs).

Bytes are modelled as `Nat` (u8 values), byte buffers as `List Nat`, the
decoder state as an explicit record, and the Rust recursion as fuel-indexed
structural recursion (the fuel is shown sufficient below; see claim C10).
-/

namespace Yabel

/-- `ErrorKind` from src/src/error.rs. -/
inductive ErrorKind where
  | UnexpectedByte : Nat → ErrorKind
  | UnexpectedEndOfBuffer : ErrorKind
  | UnsortedDictionary : ErrorKind
  | InvalidDictionaryKey : ErrorKind
  | LeadingZeros : ErrorKind
  | NegativeZero : ErrorKind
  | InvalidData : ErrorKind
deriving Repr, DecidableEq

/-- `DecodeError` from src/src/error.rs: a wrapper around `ErrorKind`. -/
structure DecodeError where
  kind : ErrorKind
deriving Repr, DecidableEq

/-- `Item` from src/src/items.rs.  `BString` is a byte sequence (`Cow<[u8]>`
compares and tests equality bytewise, so it is just the byte list);
`BInteger` wraps an `i64`; `BList` wraps a `Vec<Item>`; `BDictionary` wraps a
`BTreeMap<BString, Item>`, modelled as its sorted association list of
entries in ascending byte-lexicographic key order. -/
inductive Item where
  | String : List Nat → Item
  | Integer : Int → Item
  | List : List Item → Item
  | Dictionary : List (List Nat × Item) → Item
deriving Repr

/-- Strict byte-lexicographic order on byte sequences: the `Ord` instance of
Rust `[u8]` slices used by `BString`'s derived `Ord`/`PartialOrd`. -/
def bytesLt : List Nat → List Nat → Bool
  | [], [] => false
  | [], _ :: _ => true
  | _ :: _, [] => false
  | a :: as, b :: bs => if a < b then true else if a = b then bytesLt as bs else false

/-- `BTreeMap::insert` on the sorted-association-list model: keeps keys in
ascending order and replaces the value when the key is already present. -/
def btreeInsert (k : List Nat) (v : Item) : List (List Nat × Item) → List (List Nat × Item)
  | [] => [(k, v)]
  | (k', v') :: rest =>
    if bytesLt k k' then (k, v) :: (k', v') :: rest
    else if k = k' then (k, v) :: rest
    else (k', v') :: btreeInsert k v rest

/-- `items.into_iter().collect::<BTreeMap<_,_>>()`: inserting the pairs in
encounter order, so a later pair with an equal key overwrites an earlier one. -/
def btreeCollect (ps : List (List Nat × Item)) : List (List Nat × Item) :=
  ps.foldl (fun m p => btreeInsert p.1 p.2 m) []

/-- Decoder state: the `Decoder` struct from src/src/decode.rs. -/
structure DecState where
  bytes : List Nat
  cursor : Nat
  allow_unsorted_dictionaries : Bool
deriving Repr

/-- Result of a decoding step: success carries the updated decoder state;
`fuelOut` marks fuel exhaustion of the embedding (shown unreachable). -/
inductive DRes (α : Type) where
  | ok : α → DecState → DRes α
  | err : DecodeError → DRes α
  | fuelOut : DRes α
deriving Repr

/-- `Iterator::position` starting at an offset, as used by `read_bytes`:
index of the first occurrence of `stop` in the list, if any. -/
def findStop (stop : Nat) : List Nat → Option Nat
  | [] => none
  | b :: bs => if b = stop then some 0 else (findStop stop bs).map (· + 1)

/-- `Decoder::read_bytes` from src/src/decode.rs: scan from the cursor for
`stop`, return the bytes strictly before it and advance the cursor past it;
`UnexpectedEndOfBuffer` when `stop` does not occur. -/
def read_bytes (s : DecState) (stop : Nat) : Except DecodeError (List Nat × DecState) :=
  match findStop stop (s.bytes.drop s.cursor) with
  | none => .error ⟨.UnexpectedEndOfBuffer⟩
  | some pos =>
    .ok ((s.bytes.drop s.cursor).take pos, { s with cursor := s.cursor + pos + 1 })

/-- A byte is an ASCII decimal digit. -/
def isDigit (b : Nat) : Bool := 48 ≤ b && b ≤ 57

/-- Value of a list of ASCII digit bytes, most significant first. -/
def digitsVal (ds : List Nat) : Nat := ds.foldl (fun a d => a * 10 + (d - 48)) 0

/-- Digit part of Rust `str::parse::<i64>()`: at least one ASCII digit, all
bytes digits, and the signed value must fit in the 64-bit range.  Any byte
sequence not of that shape is either invalid UTF-8 or rejected by the
integer parser; both cases collapse to `none` (`InvalidData` in
`parse_i64`). -/
def parseDigitsSigned (sign : Int) (ds : List Nat) : Option Int :=
  if ds.isEmpty then none
  else if ds.all isDigit then
    let v : Int := sign * (digitsVal ds : Nat)
    if -(2^63) ≤ v ∧ v ≤ 2^63 - 1 then some v else none
  else none

/-- Rust `str::from_utf8` followed by `str::parse::<i64>()`, continued: the
optional sign byte selects the sign, the remainder must be the digits. -/
def parseRustI64 (bytes : List Nat) : Option Int :=
  match bytes with
  | 43 :: rest => parseDigitsSigned 1 rest
  | 45 :: rest => parseDigitsSigned (-1) rest
  | rest => parseDigitsSigned 1 rest

/-- `parse_i64` from src/src/decode.rs, with its slice patterns in source
order: `[b'-', b'0', _, ..] | [b'0', _, ..]` gives `LeadingZeros`, then
`[b'-', b'0', ..]` (only `-0` remains) gives `NegativeZero`, otherwise the
text is parsed as an `i64` with failures mapped to `InvalidData`. -/
def parse_i64 (bytes : List Nat) : Except DecodeError Int :=
  match bytes with
  | 45 :: 48 :: _ :: _ => .error ⟨.LeadingZeros⟩
  | 48 :: _ :: _ => .error ⟨.LeadingZeros⟩
  | [45, 48] => .error ⟨.NegativeZero⟩
  | bs =>
    match parseRustI64 bs with
    | some v => .ok v
    | none => .error ⟨.InvalidData⟩

/-- `Decoder::decode_string`: read the length prefix up to `:`, parse it via
`parse_i64`, cast `as usize` (64-bit wrap), then take exactly that many
bytes, failing with `UnexpectedEndOfBuffer` if fewer remain. -/
def decode_string (s : DecState) : Except DecodeError (List Nat × DecState) :=
  match read_bytes s 58 with
  | .error e => .error e
  | .ok (pre, s1) =>
    match parse_i64 pre with
    | .error e => .error e
    | .ok i =>
      let length := (i % (2^64 : Int)).toNat
      if s1.cursor + length ≤ s1.bytes.length then
        .ok ((s1.bytes.drop s1.cursor).take length,
             { s1 with cursor := s1.cursor + length })
      else .error ⟨.UnexpectedEndOfBuffer⟩

/-- `Decoder::decode_integer`: skip the leading `i`, read up to `e`, parse. -/
def decode_integer (s : DecState) : Except DecodeError (Int × DecState) :=
  read_bytes { s with cursor := s.cursor + 1 } 101 |>.bind
    fun (pre, s1) => (parse_i64 pre).map fun v => (v, s1)

mutual

/-- `Decoder::decode_item`: dispatch on the byte at the cursor.  The fuel
argument makes the Rust recursion structural; `decodeRun` below supplies
enough fuel for any buffer (claim C10). -/
def decode_item : Nat → DecState → Nat → DRes Item
  | 0, _, _ => .fuelOut
  | f + 1, s, byte =>
    if 48 ≤ byte && byte ≤ 57 then
      match decode_string s with
      | .ok (str, s') => .ok (.String str) s'
      | .error e => .err e
    else if byte = 105 then
      match decode_integer s with
      | .ok (i, s') => .ok (.Integer i) s'
      | .error e => .err e
    else if byte = 108 then
      match decode_list_loop f { s with cursor := s.cursor + 1 } [] with
      | .ok items s' => .ok (.List items) s'
      | .err e => .err e
      | .fuelOut => .fuelOut
    else if byte = 100 then
      match decode_dict_loop f { s with cursor := s.cursor + 1 } [] with
      | .ok pairs s' => .ok (.Dictionary (btreeCollect pairs)) s'
      | .err e => .err e
      | .fuelOut => .fuelOut
    else .err ⟨.UnexpectedByte byte⟩

/-- The `while` loop of `Decoder::decode_list` (the leading `l` has already
been consumed): accumulate items until the byte `e` (consumed), failing with
`UnexpectedEndOfBuffer` if the buffer is exhausted first. -/
def decode_list_loop : Nat → DecState → List Item → DRes (List Item)
  | 0, _, _ => .fuelOut
  | f + 1, s, acc =>
    match s.bytes.get? s.cursor with
    | none => .err ⟨.UnexpectedEndOfBuffer⟩
    | some b =>
      if b = 101 then .ok acc { s with cursor := s.cursor + 1 }
      else
        match decode_item f s b with
        | .ok it s' => decode_list_loop f s' (acc ++ [it])
        | .err e => .err e
        | .fuelOut => .fuelOut

/-- The `while` loop of `Decoder::decode_dictionary` (the leading `d` has
already been consumed): parse a key item (must be a byte-string), check the
order against the previously accepted key unless unsorted dictionaries are
allowed, parse the value, and repeat until `e` (consumed) or exhaustion. -/
def decode_dict_loop : Nat → DecState → List (List Nat × Item) → DRes (List (List Nat × Item))
  | 0, _, _ => .fuelOut
  | f + 1, s, acc =>
    match s.bytes.get? s.cursor with
    | none => .err ⟨.UnexpectedEndOfBuffer⟩
    | some b =>
      if b = 101 then .ok acc { s with cursor := s.cursor + 1 }
      else
        match decode_item f s b with
        | .err e => .err e
        | .fuelOut => .fuelOut
        | .ok it s1 =>
          match it with
          | .String key =>
            if !s1.allow_unsorted_dictionaries &&
                (match acc.getLast? with
                 | some (k, _) => bytesLt key k
                 | none => false) then
              .err ⟨.UnsortedDictionary⟩
            else
              match s1.bytes.get? s1.cursor with
              | none => .err ⟨.UnexpectedEndOfBuffer⟩
              | some b2 =>
                match decode_item f s1 b2 with
                | .ok v s2 => decode_dict_loop f s2 (acc ++ [(key, v)])
                | .err e => .err e
                | .fuelOut => .fuelOut
          | _ => .err ⟨.InvalidDictionaryKey⟩

end

/-- The `while` loop of `Decoder::decode`: parse items at the cursor until
the buffer is exhausted, collecting them in order; the first error aborts. -/
def decode_loop : Nat → DecState → List Item → DRes (List Item)
  | 0, _, _ => .fuelOut
  | f + 1, s, acc =>
    match s.bytes.get? s.cursor with
    | none => .ok acc s
    | some b =>
      match decode_item f s b with
      | .ok it s' => decode_loop f s' (acc ++ [it])
      | .err e => .err e
      | .fuelOut => .fuelOut

/-- `Decoder::new(bytes).setting(...).decode()` with the fuel instantiated
at `2 * bytes.length + 1`, which is shown sufficient (claim C10).
`allow = true` is the `Settings::UnsortedDictionaries` setting. -/
def decodeRun (bytes : List Nat) (allow : Bool) : DRes (List Item) :=
  decode_loop (2 * bytes.length + 1) ⟨bytes, 0, allow⟩ []

/-- The observable result of `Decoder::decode` (the decoder's final private
cursor is discarded, as in the Rust API).  The `fuelOut` branch is dead by
claim C10. -/
def decodeD (bytes : List Nat) (allow : Bool) : Except DecodeError (List Item) :=
  match decodeRun bytes allow with
  | .ok items _ => .ok items
  | .err e => .error e
  | .fuelOut => .error ⟨.UnexpectedEndOfBuffer⟩

/-- ASCII decimal digits, most significant first (empty for 0), with a fuel
argument making the division recursion structural; `natDigits` instantiates
the fuel at `n`, which suffices since `(n + 1) / 10 ≤ n`. -/
def natDigitsAux : Nat → Nat → List Nat
  | _, 0 => []
  | 0, _ + 1 => []
  | f + 1, n + 1 => natDigitsAux f ((n + 1) / 10) ++ [48 + (n + 1) % 10]

/-- ASCII decimal digits of `n`, most significant first (empty for 0):
the digit-production loop behind Rust's `Display for u64`. -/
def natDigits (n : Nat) : List Nat := natDigitsAux n n

/-- Decimal rendering of a natural number (`0` renders as `"0"`). -/
def encodeNat (n : Nat) : List Nat := if n = 0 then [48] else natDigits n

/-- Rust `Display for i64` (`format!("{}", i)`): a `-` sign only when
negative, then the decimal digits of the magnitude with no leading zeros. -/
def encodeInt (i : Int) : List Nat :=
  if i < 0 then 45 :: encodeNat (-i).toNat else encodeNat i.toNat

/-- `Bencode for BString`: `<len>:<bytes>` (src/src/items.rs). -/
def encodeString (s : List Nat) : List Nat := encodeNat s.length ++ [58] ++ s

mutual

/-- `Bencode for Item` (src/src/items.rs): dispatch to the variant encoders;
integers are `i<decimal>e`, lists `l<items>e`, dictionaries `d<pairs>e`. -/
def encodeItem : Item → List Nat
  | .String s => encodeString s
  | .Integer i => 105 :: encodeInt i ++ [101]
  | .List l => 108 :: encodeItems l ++ [101]
  | .Dictionary d => 100 :: encodePairs d ++ [101]

/-- Concatenation of the encodings of a list of items, in order. -/
def encodeItems : List Item → List Nat
  | [] => []
  | t :: ts => encodeItem t ++ encodeItems ts

/-- `Bencode for BDictionary`: each entry contributes its key's string
encoding followed by its value's encoding, in the map's iteration order —
no sorting is performed here. -/
def encodePairs : List (List Nat × Item) → List Nat
  | [] => []
  | (k, v) :: ps => encodeString k ++ encodeItem v ++ encodePairs ps

end

/-- Keys strictly ascending in byte-lexicographic order: the `BTreeMap`
representation invariant of `BDictionary`. -/
def keysSorted : List (List Nat × Item) → Bool
  | [] => true
  | [_] => true
  | (k1, _) :: (k2, v2) :: rest =>
    bytesLt k1 k2 && keysSorted ((k2, v2) :: rest)

mutual

/-- Every dictionary anywhere inside the item satisfies the sorted-key
`BTreeMap` invariant. -/
def itemInv : Item → Bool
  | .String _ => true
  | .Integer _ => true
  | .List l => itemsInv l
  | .Dictionary d => keysSorted d && pairsInv d

/-- `itemInv` on every element of a list. -/
def itemsInv : List Item → Bool
  | [] => true
  | t :: ts => itemInv t && itemsInv ts

/-- `itemInv` on every value of an association list. -/
def pairsInv : List (List Nat × Item) → Bool
  | [] => true
  | (_, v) :: ps => itemInv v && pairsInv ps

end

mutual

/-- A tree constructible from the public constructors of src/src/items.rs:
byte-strings are `u8` sequences of an in-memory-representable length,
integers are in the `i64` range, and dictionaries come from key-sorted
`BTreeMap`s (keys unique and strictly ascending), all recursively. -/
def wfItem : Item → Bool
  | .String s => decide (s.length < 2^63) && s.all (· < 256)
  | .Integer i => decide (-(2^63 : Int) ≤ i) && decide (i < 2^63)
  | .List l => wfItems l
  | .Dictionary d => keysSorted d && wfPairs d

/-- `wfItem` on every element of a list. -/
def wfItems : List Item → Bool
  | [] => true
  | t :: ts => wfItem t && wfItems ts

/-- Keys are valid byte-strings and values well-formed, recursively. -/
def wfPairs : List (List Nat × Item) → Bool
  | [] => true
  | (k, v) :: ps =>
    decide (k.length < 2^63) && k.all (· < 256) && wfItem v && wfPairs ps

end

/-- Value lookup in an association list, first match. -/
def assocLookup (k : List Nat) : List (List Nat × Item) → Option Item
  | [] => none
  | (k', v) :: rest => if k' = k then some v else assocLookup k rest

/-- Byte list of a Lean string literal (used only to write concrete test
inputs readably; all example inputs are ASCII). -/
def strBytes (s : String) : List Nat := s.data.map Char.toNat

/-! ### Order facts about `bytesLt` -/

theorem bytesLt_irrefl : ∀ a, bytesLt a a = false := by
  intro a
  induction a with
  | nil => rfl
  | cons x xs ih => simp [bytesLt, ih]

theorem bytesLt_asymm : ∀ a b, bytesLt a b = true → bytesLt b a = false := by
  intro a
  induction a with
  | nil =>
    intro b h
    cases b with
    | nil => simp [bytesLt] at h
    | cons y ys => simp [bytesLt]
  | cons x xs ih =>
    intro b h
    cases b with
    | nil => simp [bytesLt] at h
    | cons y ys =>
      simp only [bytesLt] at h ⊢
      by_cases hxy : x < y
      · have : ¬ y < x := by omega
        have : y ≠ x := by omega
        simp_all
      · by_cases hxe : x = y
        · subst hxe
          simp only [lt_irrefl, if_false, if_pos rfl] at h ⊢
          exact ih ys h
        · simp [hxy, hxe] at h

theorem bytesLt_trans : ∀ a b c, bytesLt a b = true → bytesLt b c = true → bytesLt a c = true := by
  intro a
  induction a with
  | nil =>
    intro b c hab hbc
    cases b with
    | nil => simp [bytesLt] at hab
    | cons y ys =>
      cases c with
      | nil => simp [bytesLt] at hbc
      | cons z zs => simp [bytesLt]
  | cons x xs ih =>
    intro b c hab hbc
    cases b with
    | nil => simp [bytesLt] at hab
    | cons y ys =>
      cases c with
      | nil => simp [bytesLt] at hbc
      | cons z zs =>
        simp only [bytesLt] at hab hbc ⊢
        by_cases hxy : x < y
        · by_cases hyz : y < z
          · simp [show x < z by omega]
          · by_cases hyze : y = z
            · subst hyze; simp [hxy]
            · simp [hyz, hyze] at hbc
        · by_cases hxye : x = y
          · subst hxye
            simp only [lt_irrefl, if_false, if_pos rfl] at hab
            by_cases hyz : x < z
            · simp [hyz]
            · by_cases hyze : x = z
              · subst hyze
                simp only [lt_irrefl, if_false, if_pos rfl] at hbc ⊢
                exact ih ys zs hab hbc
              · simp [hyz, hyze] at hbc
          · simp [hxy, hxye] at hab

theorem bytesLt_trichotomy :
    ∀ a b, bytesLt a b = true ∨ a = b ∨ bytesLt b a = true := by
  intro a
  induction a with
  | nil =>
    intro b
    cases b with
    | nil => right; left; rfl
    | cons y ys => left; simp [bytesLt]
  | cons x xs ih =>
    intro b
    cases b with
    | nil => right; right; simp [bytesLt]
    | cons y ys =>
      by_cases hxy : x < y
      · left; simp [bytesLt, hxy]
      · by_cases hxye : x = y
        · subst hxye
          rcases ih ys with h | h | h
          · left; simp [bytesLt, h]
          · subst h; right; left; rfl
          · right; right; simp [bytesLt, h]
        · right; right
          have hyx : y < x := by omega
          simp [bytesLt, hyx]

/-! ### Decimal digit rendering and `parse_i64` on canonical text -/

theorem natDigitsAux_eq (n : Nat) : ∀ f, n ≤ f → natDigitsAux f n = natDigits n := by
  induction n using Nat.strong_induction_on with
  | _ n ih =>
    intro f hf
    match n, f with
    | 0, 0 => rfl
    | 0, _ + 1 => rfl
    | m + 1, g + 1 =>
      have hq : (m + 1) / 10 < m + 1 := Nat.div_lt_self (Nat.succ_pos m) (by norm_num)
      show natDigitsAux g ((m + 1) / 10) ++ [48 + (m + 1) % 10]
         = natDigitsAux m ((m + 1) / 10) ++ [48 + (m + 1) % 10]
      rw [ih ((m + 1) / 10) hq g (by omega), ih ((m + 1) / 10) hq m (by omega)]

theorem natDigits_succ (n : Nat) :
    natDigits (n + 1) = natDigits ((n + 1) / 10) ++ [48 + (n + 1) % 10] := by
  have hq : (n + 1) / 10 < n + 1 := Nat.div_lt_self (Nat.succ_pos n) (by norm_num)
  show natDigitsAux n ((n + 1) / 10) ++ [48 + (n + 1) % 10] = _
  rw [natDigitsAux_eq ((n + 1) / 10) n (by omega)]

theorem digitsVal_append (ds : List Nat) (d : Nat) :
    digitsVal (ds ++ [d]) = digitsVal ds * 10 + (d - 48) := by
  simp [digitsVal, List.foldl_append]

theorem digitsVal_natDigits : ∀ n, digitsVal (natDigits n) = n := by
  intro n
  induction n using Nat.strong_induction_on with
  | _ n ih =>
    match n with
    | 0 => rfl
    | m + 1 =>
      have hq : (m + 1) / 10 < m + 1 := Nat.div_lt_self (Nat.succ_pos m) (by norm_num)
      rw [natDigits_succ, digitsVal_append, ih _ hq]
      have := Nat.div_add_mod (m + 1) 10
      omega

theorem natDigits_mem : ∀ n d, d ∈ natDigits n → 48 ≤ d ∧ d ≤ 57 := by
  intro n
  induction n using Nat.strong_induction_on with
  | _ n ih =>
    match n with
    | 0 => intro d hd; simp [natDigits, natDigitsAux] at hd
    | m + 1 =>
      intro d hd
      rw [natDigits_succ] at hd
      rcases List.mem_append.mp hd with h | h
      · exact ih _ (Nat.div_lt_self (Nat.succ_pos m) (by norm_num)) d h
      · have : d = 48 + (m + 1) % 10 := by simpa using h
        have : (m + 1) % 10 < 10 := Nat.mod_lt _ (by norm_num)
        omega

theorem natDigits_head_ne_48 :
    ∀ n, 0 < n → ∀ d, (natDigits n).head? = some d → d ≠ 48 := by
  intro n
  induction n using Nat.strong_induction_on with
  | _ n ih =>
    intro hn d hd
    match n, hn with
    | m + 1, _ =>
      rw [natDigits_succ] at hd
      by_cases hq : (m + 1) / 10 = 0
      · have hr : (m + 1) % 10 ≠ 0 := by
          have := Nat.div_add_mod (m + 1) 10
          omega
        rw [hq] at hd
        simp [natDigits, natDigitsAux] at hd
        omega
      · rw [List.head?_append] at hd
        have hnil : natDigits ((m + 1) / 10) ≠ [] := by
          match h : (m + 1) / 10, hq with
          | q + 1, _ => rw [natDigits_succ]; simp
        match hh : (natDigits ((m + 1) / 10)).head? with
        | none => exact absurd (List.head?_eq_none_iff.mp hh) hnil
        | some d' =>
          rw [hh] at hd
          simp only [Option.or_some] at hd
          cases hd
          exact ih _ (Nat.div_lt_self (Nat.succ_pos m) (by norm_num)) (by omega) d hh

theorem encodeNat_ne_nil : ∀ n, encodeNat n ≠ [] := by
  intro n
  match n with
  | 0 => simp [encodeNat]
  | m + 1 => rw [encodeNat, if_neg (Nat.succ_ne_zero m), natDigits_succ]; simp

theorem encodeNat_mem : ∀ n d, d ∈ encodeNat n → 48 ≤ d ∧ d ≤ 57 := by
  intro n d hd
  match n with
  | 0 => simp [encodeNat] at hd; omega
  | m + 1 =>
    rw [encodeNat, if_neg (Nat.succ_ne_zero m)] at hd
    exact natDigits_mem _ d hd

theorem parse_i64_encodeNat (n : Nat) (h : n < 2^63) :
    parse_i64 (encodeNat n) = .ok (n : Int) := by
  match n with
  | 0 => rfl
  | m + 1 =>
    have hne : encodeNat (m + 1) ≠ [] := encodeNat_ne_nil _
    have henc : encodeNat (m + 1) = natDigits (m + 1) := by
      rw [encodeNat, if_neg (Nat.succ_ne_zero m)]
    obtain ⟨d0, rest, hcons⟩ := List.exists_cons_of_ne_nil hne
    have hmem : ∀ d ∈ encodeNat (m + 1), 48 ≤ d ∧ d ≤ 57 := encodeNat_mem _
    have hd0m : d0 ∈ encodeNat (m + 1) := by rw [hcons]; exact List.mem_cons_self _ _
    have hd0 : 48 ≤ d0 ∧ d0 ≤ 57 := hmem d0 hd0m
    have hd048 : d0 ≠ 48 := by
      apply natDigits_head_ne_48 (m + 1) (Nat.succ_pos m)
      rw [← henc, hcons]; rfl
    have hval : digitsVal (d0 :: rest) = m + 1 := by
      rw [← hcons, henc, digitsVal_natDigits]
    rw [hcons]
    unfold parse_i64
    split
    · rename_i heq; injection heq with h1 _; omega
    · rename_i heq; injection heq with h1 _; omega
    · rename_i heq; injection heq with h1 _; omega
    · show (match parseRustI64 (d0 :: rest) with
        | some v => Except.ok v
        | none => Except.error (DecodeError.mk .InvalidData)) = Except.ok ((m + 1 : Nat) : Int)
      have hall : (d0 :: rest).all isDigit = true := by
        rw [List.all_eq_true]
        intro d hd
        have := hmem d (by rw [hcons]; exact hd)
        simp [isDigit]; omega
      have hRust : parseRustI64 (d0 :: rest) = some ((m + 1 : Nat) : Int) := by
        unfold parseRustI64
        split
        · rename_i heq; injection heq with h1 _; omega
        · rename_i heq; injection heq with h1 _; omega
        · unfold parseDigitsSigned
          rw [if_neg (by simp), if_pos hall, hval]
          rw [if_pos (by push_cast; omega)]
          simp
      rw [hRust]

theorem parse_i64_encodeInt (i : Int) (h1 : -(2^63) ≤ i) (h2 : i < 2^63) :
    parse_i64 (encodeInt i) = .ok i := by
  by_cases hneg : i < 0
  · rw [encodeInt, if_pos hneg]
    set m : Nat := (-i).toNat with hm
    have hmpos : 0 < m := by omega
    have hmle : (m : Int) = -i := by omega
    have hne : encodeNat m ≠ [] := encodeNat_ne_nil _
    have henc : encodeNat m = natDigits m := by
      match hmm : m, hmpos with
      | k + 1, _ => rw [encodeNat, if_neg (Nat.succ_ne_zero k)]
    obtain ⟨d0, rest, hcons⟩ := List.exists_cons_of_ne_nil hne
    have hd048 : d0 ≠ 48 := by
      apply natDigits_head_ne_48 m hmpos
      rw [← henc, hcons]; rfl
    have hmem : ∀ d ∈ encodeNat m, 48 ≤ d ∧ d ≤ 57 := encodeNat_mem _
    have hval : digitsVal (d0 :: rest) = m := by
      rw [← hcons, henc, digitsVal_natDigits]
    rw [hcons]
    unfold parse_i64
    split
    · rename_i heq
      injection heq with _ h48
      injection h48 with h48 _
      omega
    · rename_i heq; injection heq with h45 _; omega
    · rename_i heq
      injection heq with _ h48
      injection h48 with h48 _
      omega
    · show (match parseRustI64 (45 :: d0 :: rest) with
        | some v => Except.ok v
        | none => Except.error (DecodeError.mk .InvalidData)) = Except.ok i
      have hall : (d0 :: rest).all isDigit = true := by
        rw [List.all_eq_true]
        intro d hd
        have := hmem d (by rw [hcons]; exact hd)
        simp [isDigit]; omega
      have hRust : parseRustI64 (45 :: d0 :: rest) = some i := by
        show parseDigitsSigned (-1) (d0 :: rest) = some i
        unfold parseDigitsSigned
        rw [if_neg (by simp), if_pos hall, hval]
        rw [if_pos (by push_cast; omega)]
        congr 1
        omega
      rw [hRust]
  · push_neg at hneg
    rw [encodeInt, if_neg (by omega)]
    have : ((i.toNat : Nat) : Int) = i := by omega
    rw [parse_i64_encodeNat i.toNat (by omega), this]

/-! ### `read_bytes` -/

theorem findStop_not_mem (stop : Nat) :
    ∀ l, (∀ b ∈ l, b ≠ stop) → findStop stop l = none := by
  intro l
  induction l with
  | nil => intro _; rfl
  | cons x xs ih =>
    intro h
    rw [findStop, if_neg (h x (List.mem_cons_self _ _)), ih (fun b hb => h b (List.mem_cons_of_mem _ hb))]
    rfl

theorem findStop_append (stop : Nat) :
    ∀ pre rest, (∀ b ∈ pre, b ≠ stop) →
      findStop stop (pre ++ stop :: rest) = some pre.length := by
  intro pre
  induction pre with
  | nil => intro rest _; simp [findStop]
  | cons x xs ih =>
    intro rest h
    rw [List.cons_append, findStop, if_neg (h x (List.mem_cons_self _ _)),
      ih rest (fun b hb => h b (List.mem_cons_of_mem _ hb))]
    rfl

theorem read_bytes_spec (s : DecState) (stop : Nat) (pre rest : List Nat)
    (hd : s.bytes.drop s.cursor = pre ++ stop :: rest)
    (h : ∀ b ∈ pre, b ≠ stop) :
    read_bytes s stop = .ok (pre, { s with cursor := s.cursor + pre.length + 1 }) := by
  unfold read_bytes
  rw [hd, findStop_append stop pre rest h]
  simp [List.take_left]

theorem read_bytes_none (s : DecState) (stop : Nat)
    (h : ∀ b ∈ s.bytes.drop s.cursor, b ≠ stop) :
    read_bytes s stop = .error ⟨.UnexpectedEndOfBuffer⟩ := by
  unfold read_bytes
  rw [findStop_not_mem stop _ h]

theorem encodeInt_mem (i : Int) :
    ∀ d ∈ encodeInt i, d = 45 ∨ (48 ≤ d ∧ d ≤ 57) := by
  intro d hd
  rw [encodeInt] at hd
  split at hd
  · rcases List.mem_cons.mp hd with h | h
    · left; exact h
    · right; exact encodeNat_mem _ d h
  · right; exact encodeNat_mem _ d hd

theorem decode_string_enc (s : DecState) (str rest : List Nat)
    (hd : s.bytes.drop s.cursor = encodeString str ++ rest)
    (hlen : str.length < 2^63) :
    decode_string s
      = .ok (str, { s with cursor := s.cursor + (encodeString str).length }) := by
  have hsplit : s.bytes.drop s.cursor
      = encodeNat str.length ++ 58 :: (str ++ rest) := by
    rw [hd, encodeString]
    simp [List.append_assoc]
  have hno58 : ∀ b ∈ encodeNat str.length, b ≠ 58 := by
    intro b hb
    have := encodeNat_mem _ b hb
    omega
  have hrb := read_bytes_spec s 58 (encodeNat str.length) (str ++ rest) hsplit hno58
  have hcle : s.cursor ≤ s.bytes.length := by
    by_contra hcc
    have : s.bytes.drop s.cursor = [] := List.drop_eq_nil_of_le (by omega)
    rw [this] at hsplit
    exact (encodeNat_ne_nil str.length) (List.append_eq_nil.mp hsplit.symm).1
  have hlen_drop : s.bytes.length - s.cursor
      = (encodeNat str.length).length + 1 + (str.length + rest.length) := by
    have := congrArg List.length hsplit
    simp [List.length_drop] at this
    omega
  have hcast : (((str.length : Int)) % ((2:Int)^64)).toNat = str.length := by
    rw [Int.emod_eq_of_lt (by positivity)
      (by exact_mod_cast (by omega : str.length < 2^64))]
    exact Int.toNat_natCast _
  have hdrop2 : s.bytes.drop (s.cursor + (encodeNat str.length).length + 1)
      = str ++ rest := by
    rw [show s.cursor + (encodeNat str.length).length + 1
        = s.cursor + ((encodeNat str.length).length + 1) by omega]
    rw [← List.drop_drop, hsplit]
    have h2 : encodeNat str.length ++ 58 :: (str ++ rest)
        = (encodeNat str.length ++ [58]) ++ (str ++ rest) := by
      simp [List.append_assoc]
    rw [h2]
    have hl : (encodeNat str.length ++ [58]).length
        = (encodeNat str.length).length + 1 := by simp
    rw [← hl, List.drop_left]
  unfold decode_string
  simp only [hrb, parse_i64_encodeNat str.length hlen, hcast]
  rw [if_pos (by omega)]
  simp only [hdrop2]
  rw [List.take_left]
  congr 2
  simp [encodeString]
  omega

theorem decode_integer_enc (s : DecState) (i : Int) (rest : List Nat)
    (hd : s.bytes.drop s.cursor = 105 :: (encodeInt i ++ 101 :: rest))
    (h1 : -(2^63) ≤ i) (h2 : i < 2^63) :
    decode_integer s
      = .ok (i, { s with cursor := s.cursor + (2 + (encodeInt i).length) }) := by
  have hdrop1 : s.bytes.drop (s.cursor + 1) = encodeInt i ++ 101 :: rest := by
    rw [← List.drop_drop, hd]
    rfl
  have hno101 : ∀ b ∈ encodeInt i, b ≠ 101 := by
    intro b hb
    rcases encodeInt_mem i b hb with h | h <;> omega
  have hrb := read_bytes_spec { s with cursor := s.cursor + 1 } 101
    (encodeInt i) rest hdrop1 hno101
  unfold decode_integer
  rw [hrb]
  show (parse_i64 (encodeInt i)).map _ = _
  rw [parse_i64_encodeInt i h1 h2]
  show Except.ok (i, DecState.mk s.bytes (s.cursor + 1 + (encodeInt i).length + 1)
      s.allow_unsorted_dictionaries) = _
  rw [show s.cursor + 1 + (encodeInt i).length + 1
      = s.cursor + (2 + (encodeInt i).length) from by omega]

/-! ### Heads of encodings, sorted keys, `btreeCollect` on sorted input -/

theorem get?_cursor (s : DecState) :
    s.bytes.get? s.cursor = (s.bytes.drop s.cursor).head? := by
  rw [List.get?_eq_getElem?, ← List.head?_drop]

theorem encodeString_head (str : List Nat) :
    ∃ b, (encodeString str).head? = some b ∧ 48 ≤ b ∧ b ≤ 57 := by
  obtain ⟨d0, r, hc⟩ := List.exists_cons_of_ne_nil (encodeNat_ne_nil str.length)
  refine ⟨d0, ?_, ?_⟩
  · rw [encodeString, hc]; rfl
  · exact encodeNat_mem _ d0 (by rw [hc]; exact List.mem_cons_self _ _)

theorem encodeItem_head (t : Item) :
    ∃ b, (encodeItem t).head? = some b ∧
      ((48 ≤ b ∧ b ≤ 57) ∨ b = 105 ∨ b = 108 ∨ b = 100) := by
  cases t with
  | String s =>
    obtain ⟨b, hb, hd⟩ := encodeString_head s
    exact ⟨b, by rw [encodeItem]; exact hb, Or.inl hd⟩
  | Integer i => exact ⟨105, by rw [encodeItem]; rfl, by omega⟩
  | List l => exact ⟨108, by rw [encodeItem]; rfl, by omega⟩
  | Dictionary d => exact ⟨100, by rw [encodeItem]; rfl, by omega⟩

theorem encodeItem_length_pos (t : Item) : 1 ≤ (encodeItem t).length := by
  obtain ⟨b, hb, _⟩ := encodeItem_head t
  cases henc : encodeItem t with
  | nil => rw [henc] at hb; exact absurd hb (by simp)
  | cons x xs => simp

theorem keysSorted_cons_tail {p : List Nat × Item} {ps : List (List Nat × Item)}
    (h : keysSorted (p :: ps) = true) : keysSorted ps = true := by
  match p, ps with
  | _, [] => rfl
  | (k1, v1), (k2, v2) :: rest =>
    rw [keysSorted] at h
    exact (Bool.and_eq_true_iff.mp h).2

theorem keysSorted_cons_head {k1 : List Nat} {v1 : Item} {k2 : List Nat} {v2 : Item}
    {ps : List (List Nat × Item)}
    (h : keysSorted ((k1, v1) :: (k2, v2) :: ps) = true) : bytesLt k1 k2 = true := by
  rw [keysSorted] at h
  exact (Bool.and_eq_true_iff.mp h).1

theorem keysSorted_head_lt {k : List Nat} {v : Item} :
    ∀ ps, keysSorted ((k, v) :: ps) = true →
      ∀ p ∈ ps, bytesLt k p.1 = true := by
  intro ps
  induction ps generalizing k v with
  | nil => intro _ p hp; cases hp
  | cons q qs ih =>
    intro h p hp
    obtain ⟨k2, v2⟩ := q
    have hk : bytesLt k k2 = true := keysSorted_cons_head h
    rcases List.mem_cons.mp hp with h1 | h1
    · subst h1; exact hk
    · exact bytesLt_trans _ _ _ hk (ih (keysSorted_cons_tail h) p h1)

theorem btreeInsert_append (k : List Nat) (v : Item) :
    ∀ m, (∀ q ∈ m, bytesLt q.1 k = true) → btreeInsert k v m = m ++ [(k, v)] := by
  intro m
  induction m with
  | nil => intro _; rfl
  | cons q qs ih =>
    intro h
    obtain ⟨k', v'⟩ := q
    have hlt : bytesLt k' k = true := h (k', v') (List.mem_cons_self _ _)
    have h1 : bytesLt k k' = false := bytesLt_asymm _ _ hlt
    have h2 : k ≠ k' := by
      intro he
      subst he
      rw [bytesLt_irrefl] at hlt
      exact absurd hlt (by simp)
    rw [btreeInsert, if_neg (by simp [h1]), if_neg h2,
      ih (fun q hq => h q (List.mem_cons_of_mem _ hq))]
    rfl

theorem btreeCollect_sorted_go :
    ∀ d m, (∀ q ∈ m, ∀ p ∈ d, bytesLt q.1 p.1 = true) → keysSorted d = true →
      List.foldl (fun m p => btreeInsert p.1 p.2 m) m d = m ++ d := by
  intro d
  induction d with
  | nil => intro m _ _; simp
  | cons p ps ih =>
    intro m hm hs
    obtain ⟨k, v⟩ := p
    have hins : btreeInsert k v m = m ++ [(k, v)] := by
      apply btreeInsert_append
      intro q hq
      exact hm q hq (k, v) (List.mem_cons_self _ _)
    show List.foldl _ (btreeInsert k v m) ps = m ++ (k, v) :: ps
    rw [hins, ih (m ++ [(k, v)]) ?_ (keysSorted_cons_tail hs)]
    · simp
    · intro q hq p hp
      rcases List.mem_append.mp hq with h1 | h1
      · exact hm q h1 p (List.mem_cons_of_mem _ hp)
      · have : q = (k, v) := by simpa using h1
        subst this
        exact keysSorted_head_lt ps hs p hp

theorem btreeCollect_sorted_id (d : List (List Nat × Item))
    (h : keysSorted d = true) : btreeCollect d = d := by
  unfold btreeCollect
  rw [btreeCollect_sorted_go d [] (by intro q hq; cases hq) h]
  rfl

/-! ### One-step equations of the fuel-indexed decoders -/

theorem decode_item_succ (f : Nat) (s : DecState) (byte : Nat) :
    decode_item (f + 1) s byte =
      if 48 ≤ byte && byte ≤ 57 then
        match decode_string s with
        | .ok (str, s') => .ok (.String str) s'
        | .error e => .err e
      else if byte = 105 then
        match decode_integer s with
        | .ok (i, s') => .ok (.Integer i) s'
        | .error e => .err e
      else if byte = 108 then
        match decode_list_loop f { s with cursor := s.cursor + 1 } [] with
        | .ok items s' => .ok (.List items) s'
        | .err e => .err e
        | .fuelOut => .fuelOut
      else if byte = 100 then
        match decode_dict_loop f { s with cursor := s.cursor + 1 } [] with
        | .ok pairs s' => .ok (.Dictionary (btreeCollect pairs)) s'
        | .err e => .err e
        | .fuelOut => .fuelOut
      else .err ⟨.UnexpectedByte byte⟩ := rfl

theorem decode_list_loop_succ (f : Nat) (s : DecState) (acc : List Item) :
    decode_list_loop (f + 1) s acc =
      match s.bytes.get? s.cursor with
      | none => .err ⟨.UnexpectedEndOfBuffer⟩
      | some b =>
        if b = 101 then .ok acc { s with cursor := s.cursor + 1 }
        else
          match decode_item f s b with
          | .ok it s' => decode_list_loop f s' (acc ++ [it])
          | .err e => .err e
          | .fuelOut => .fuelOut := rfl

theorem decode_dict_loop_succ (f : Nat) (s : DecState)
    (acc : List (List Nat × Item)) :
    decode_dict_loop (f + 1) s acc =
      match s.bytes.get? s.cursor with
      | none => .err ⟨.UnexpectedEndOfBuffer⟩
      | some b =>
        if b = 101 then .ok acc { s with cursor := s.cursor + 1 }
        else
          match decode_item f s b with
          | .err e => .err e
          | .fuelOut => .fuelOut
          | .ok it s1 =>
            match it with
            | .String key =>
              if !s1.allow_unsorted_dictionaries &&
                  (match acc.getLast? with
                   | some (k, _) => bytesLt key k
                   | none => false) then
                .err ⟨.UnsortedDictionary⟩
              else
                match s1.bytes.get? s1.cursor with
                | none => .err ⟨.UnexpectedEndOfBuffer⟩
                | some b2 =>
                  match decode_item f s1 b2 with
                  | .ok v s2 => decode_dict_loop f s2 (acc ++ [(key, v)])
                  | .err e => .err e
                  | .fuelOut => .fuelOut
            | _ => .err ⟨.InvalidDictionaryKey⟩ := rfl

theorem decode_loop_succ (f : Nat) (s : DecState) (acc : List Item) :
    decode_loop (f + 1) s acc =
      match s.bytes.get? s.cursor with
      | none => .ok acc s
      | some b =>
        match decode_item f s b with
        | .ok it s' => decode_loop f s' (acc ++ [it])
        | .err e => .err e
        | .fuelOut => .fuelOut := rfl

/-! ### Decoding an encoding recovers the item tree -/

/-- Round-trip property of a single item: wherever its encoding sits in the
buffer, `decode_item` (with enough fuel) parses exactly it and advances the
cursor past it. -/
def RoundItem (t : Item) : Prop :=
  ∀ (f : Nat) (s : DecState) (rest : List Nat) (b : Nat),
    wfItem t = true →
    s.bytes.drop s.cursor = encodeItem t ++ rest →
    (encodeItem t).length ≤ f →
    (encodeItem t).head? = some b →
    decode_item f s b = .ok t { s with cursor := s.cursor + (encodeItem t).length }

/-- Round-trip property of a list body followed by the closing `e`. -/
def RoundList (l : List Item) : Prop :=
  ∀ (f : Nat) (s : DecState) (rest : List Nat) (acc : List Item),
    wfItems l = true →
    s.bytes.drop s.cursor = encodeItems l ++ 101 :: rest →
    (encodeItems l).length + 1 ≤ f →
    decode_list_loop f s acc
      = .ok (acc ++ l) { s with cursor := s.cursor + ((encodeItems l).length + 1) }

/-- The last already-accepted key (if any) orders strictly below the first
upcoming key (if any): the boundary condition for the dictionary loop. -/
def lastBelow (acc d : List (List Nat × Item)) : Prop :=
  match acc.getLast? with
  | none => True
  | some p =>
    match d.head? with
    | none => True
    | some q => bytesLt p.1 q.1 = true

/-- Round-trip property of a dictionary body followed by the closing `e`;
the previously accepted key (if any) must order below the first key. -/
def RoundDict (d : List (List Nat × Item)) : Prop :=
  ∀ (f : Nat) (s : DecState) (rest : List Nat) (acc : List (List Nat × Item)),
    wfPairs d = true →
    keysSorted d = true →
    lastBelow acc d →
    s.bytes.drop s.cursor = encodePairs d ++ 101 :: rest →
    (encodePairs d).length + 1 ≤ f →
    decode_dict_loop f s acc
      = .ok (acc ++ d) { s with cursor := s.cursor + ((encodePairs d).length + 1) }

mutual

/-- Node-counting size of an item tree, used as the induction measure for
the round-trip proof. -/
def sizeI : Item → Nat
  | .String _ => 1
  | .Integer _ => 1
  | .List l => 1 + sizeL l
  | .Dictionary d => 1 + sizeP d

/-- Size of a list of items. -/
def sizeL : List Item → Nat
  | [] => 0
  | t :: ts => 1 + sizeI t + sizeL ts

/-- Size of a list of dictionary entries. -/
def sizeP : List (List Nat × Item) → Nat
  | [] => 0
  | (_, v) :: ps => 1 + sizeI v + sizeP ps

end

theorem sizeI_pos (t : Item) : 1 ≤ sizeI t := by
  cases t <;> simp [sizeI]

theorem roundItem_string (str : List Nat) : RoundItem (.String str) := by
  intro f s rest b hwf hd hf hb
  simp only [encodeItem] at hd hf hb ⊢
  obtain ⟨b', hb', hdig⟩ := encodeString_head str
  rw [hb'] at hb
  injection hb with hb
  subst hb
  have hlen : str.length < 2^63 := by
    simp only [wfItem, Bool.and_eq_true, decide_eq_true_eq] at hwf
    exact hwf.1
  have hfpos : 1 ≤ f := le_trans (by
    cases hg : encodeString str with
    | nil => rw [hg] at hb'; exact absurd hb' (by simp)
    | cons _ _ => simp) hf
  obtain ⟨g, rfl⟩ : ∃ g, f = g + 1 := ⟨f - 1, by omega⟩
  rw [decode_item_succ]
  rw [if_pos (show (decide (48 ≤ b') && decide (b' ≤ 57)) = true by
    simp only [Bool.and_eq_true, decide_eq_true_eq]; omega)]
  rw [decode_string_enc s str rest hd hlen]

theorem roundItem_integer (i : Int) : RoundItem (.Integer i) := by
  intro f s rest b hwf hd hf hb
  simp only [encodeItem] at hd hf hb ⊢
  injection hb with hb
  subst hb
  have hrange : -(2^63) ≤ i ∧ i < 2^63 := by
    simp only [wfItem, Bool.and_eq_true, decide_eq_true_eq] at hwf
    exact hwf
  have hfpos : 1 ≤ f := le_trans (by simp) hf
  obtain ⟨g, rfl⟩ : ∃ g, f = g + 1 := ⟨f - 1, by omega⟩
  rw [decode_item_succ, if_neg (by decide), if_pos rfl]
  have hd' : s.bytes.drop s.cursor = 105 :: (encodeInt i ++ 101 :: rest) := by
    simpa [List.append_assoc] using hd
  rw [decode_integer_enc s i rest hd' hrange.1 hrange.2,
    show s.cursor + (2 + (encodeInt i).length)
      = s.cursor + (105 :: (encodeInt i ++ [101])).length by simp; omega]
  rfl

theorem roundList_nil : RoundList [] := by
  intro f s rest acc hwf hd hf
  simp only [encodeItems, List.nil_append] at hd
  simp only [encodeItems, List.length_nil] at hf ⊢
  obtain ⟨g, rfl⟩ : ∃ g, f = g + 1 := ⟨f - 1, by omega⟩
  rw [decode_list_loop_succ, get?_cursor, hd]
  simp

theorem roundDict_nil : RoundDict [] := by
  intro f s rest acc hwf hsort hchain hd hf
  simp only [encodePairs, List.nil_append] at hd
  simp only [encodePairs, List.length_nil] at hf ⊢
  obtain ⟨g, rfl⟩ : ∃ g, f = g + 1 := ⟨f - 1, by omega⟩
  rw [decode_dict_loop_succ, get?_cursor, hd]
  simp

theorem roundItem_list (l : List Item) (hl : RoundList l) : RoundItem (.List l) := by
  intro f s rest b hwf hd hf hb
  simp only [encodeItem] at hd hf hb ⊢
  injection hb with hb
  subst hb
  have hwf' : wfItems l = true := by simpa only [wfItem] using hwf
  have hfpos : 1 ≤ f := le_trans (by simp) hf
  obtain ⟨g, rfl⟩ : ∃ g, f = g + 1 := ⟨f - 1, by omega⟩
  rw [decode_item_succ, if_neg (by decide), if_neg (by decide), if_pos rfl]
  have hd1 : s.bytes.drop (s.cursor + 1) = encodeItems l ++ 101 :: rest := by
    rw [← List.drop_drop, hd]
    simp [List.append_assoc]
  simp only [List.length_cons, List.length_append] at hf
  have hloop := hl g { s with cursor := s.cursor + 1 } rest [] hwf' hd1 (by simp at hf ⊢; omega)
  simp only [hloop, List.nil_append]
  simp +arith

theorem roundItem_dict (d : List (List Nat × Item)) (hd0 : RoundDict d) :
    RoundItem (.Dictionary d) := by
  intro f s rest b hwf hd hf hb
  simp only [encodeItem] at hd hf hb ⊢
  injection hb with hb
  subst hb
  simp only [wfItem, Bool.and_eq_true] at hwf
  obtain ⟨hsort, hwps⟩ := hwf
  have hfpos : 1 ≤ f := le_trans (by simp) hf
  obtain ⟨g, rfl⟩ : ∃ g, f = g + 1 := ⟨f - 1, by omega⟩
  rw [decode_item_succ, if_neg (by decide), if_neg (by decide), if_neg (by decide),
    if_pos rfl]
  have hd1 : s.bytes.drop (s.cursor + 1) = encodePairs d ++ 101 :: rest := by
    rw [← List.drop_drop, hd]
    simp [List.append_assoc]
  have hchain : lastBelow [] d := by
    unfold lastBelow
    simp
  simp only [List.length_cons, List.length_append] at hf
  have hloop := hd0 g { s with cursor := s.cursor + 1 } rest [] hwps hsort hchain hd1
    (by simp at hf ⊢; omega)
  simp only [hloop, List.nil_append, btreeCollect_sorted_id d hsort]
  simp +arith

theorem roundList_cons (t : Item) (ts : List Item)
    (h1 : RoundItem t) (h2 : RoundList ts) : RoundList (t :: ts) := by
  intro f s rest acc hwf hd hf
  simp only [encodeItems] at hd hf ⊢
  simp only [wfItems, Bool.and_eq_true] at hwf
  obtain ⟨b, hb, hbp⟩ := encodeItem_head t
  have hne101 : b ≠ 101 := by rcases hbp with h | h | h | h <;> omega
  have h1len := encodeItem_length_pos t
  simp only [List.length_append] at hf ⊢
  obtain ⟨g, rfl⟩ : ∃ g, f = g + 1 := ⟨f - 1, by omega⟩
  have hd1 : s.bytes.drop s.cursor = encodeItem t ++ (encodeItems ts ++ 101 :: rest) := by
    simpa [List.append_assoc] using hd
  rw [decode_list_loop_succ, get?_cursor, hd1, List.head?_append, hb]
  simp only [Option.or_some]
  rw [if_neg hne101]
  have hitem := h1 g s (encodeItems ts ++ 101 :: rest) b hwf.1 hd1 (by omega) hb
  simp only [hitem]
  have hd2 : s.bytes.drop (s.cursor + (encodeItem t).length)
      = encodeItems ts ++ 101 :: rest := by
    rw [← List.drop_drop, hd1, List.drop_left]
  have hloop := h2 g { s with cursor := s.cursor + (encodeItem t).length } rest
    (acc ++ [t]) hwf.2 hd2 (by omega)
  simp only [hloop]
  simp +arith [List.append_assoc]

theorem roundDict_cons (k : List Nat) (v : Item) (ps : List (List Nat × Item))
    (hv : RoundItem v) (hps : RoundDict ps) : RoundDict ((k, v) :: ps) := by
  intro f s rest acc hwf hsort hchain hd hf
  simp only [encodePairs] at hd hf ⊢
  simp only [wfPairs, Bool.and_eq_true, decide_eq_true_eq] at hwf
  obtain ⟨⟨⟨hklen, hkbytes⟩, hwv⟩, hwps⟩ := hwf
  have hwk : wfItem (.String k) = true := by
    simp only [wfItem, Bool.and_eq_true, decide_eq_true_eq]
    exact ⟨hklen, hkbytes⟩
  have hke : encodeItem (.String k) = encodeString k := by rw [encodeItem]
  obtain ⟨b, hb, hdig⟩ := encodeString_head k
  have hbenc : (encodeItem (.String k)).head? = some b := by rw [hke]; exact hb
  have hne101 : b ≠ 101 := by omega
  have hkl := encodeItem_length_pos (Item.String k)
  have hvl := encodeItem_length_pos v
  simp only [List.length_append] at hf ⊢
  rw [← hke] at hf
  obtain ⟨g, rfl⟩ : ∃ g, f = g + 1 := ⟨f - 1, by omega⟩
  have hd1 : s.bytes.drop s.cursor
      = encodeItem (.String k) ++ (encodeItem v ++ (encodePairs ps ++ 101 :: rest)) := by
    rw [hke]
    simpa [List.append_assoc] using hd
  rw [decode_dict_loop_succ, get?_cursor, hd1, List.head?_append, hbenc]
  simp only [Option.or_some]
  rw [if_neg hne101]
  have hkey := roundItem_string k g s
    (encodeItem v ++ (encodePairs ps ++ 101 :: rest)) b hwk hd1 (by omega) hbenc
  simp only [hkey]
  have hchk : (!s.allow_unsorted_dictionaries &&
      (match acc.getLast? with
       | some (k', _) => bytesLt k k'
       | none => false)) = false := by
    cases hl : acc.getLast? with
    | none => simp
    | some pr =>
      obtain ⟨pk, pv⟩ := pr
      have hlt : bytesLt pk k = true := by
        unfold lastBelow at hchain
        rw [hl] at hchain
        exact hchain
      simp [bytesLt_asymm _ _ hlt]
  simp only [hchk, Bool.false_eq_true, if_false]
  have hd2 : s.bytes.drop (s.cursor + (encodeItem (.String k)).length)
      = encodeItem v ++ (encodePairs ps ++ 101 :: rest) := by
    rw [← List.drop_drop, hd1, List.drop_left]
  obtain ⟨b2, hb2, hb2p⟩ := encodeItem_head v
  have hget2 : s.bytes.get? (s.cursor + (encodeItem (.String k)).length) = some b2 := by
    rw [List.get?_eq_getElem?, ← List.head?_drop, hd2, List.head?_append, hb2]
    exact Option.or_some
  simp only [hget2]
  have hval := hv g { s with cursor := s.cursor + (encodeItem (.String k)).length }
    (encodePairs ps ++ 101 :: rest) b2 hwv hd2 (by omega) hb2
  simp only [hval]
  have hd3 : s.bytes.drop
      (s.cursor + (encodeItem (.String k)).length + (encodeItem v).length)
      = encodePairs ps ++ 101 :: rest := by
    rw [← List.drop_drop, hd2, List.drop_left]
  have hchain3 : lastBelow (acc ++ [(k, v)]) ps := by
    unfold lastBelow
    rw [List.getLast?_concat]
    cases ps with
    | nil => simp
    | cons q qs =>
      obtain ⟨qk, qv⟩ := q
      exact keysSorted_cons_head hsort
  have hrec := hps g
    { s with cursor := s.cursor + (encodeItem (.String k)).length + (encodeItem v).length }
    rest (acc ++ [(k, v)]) hwps (keysSorted_cons_tail hsort) hchain3 hd3 (by omega)
  simp only [hrec]
  simp +arith [List.append_assoc, hke]

theorem roundAll : ∀ n : Nat,
    (∀ t : Item, sizeI t ≤ n → RoundItem t) ∧
    (∀ l : List Item, sizeL l ≤ n → RoundList l) ∧
    (∀ d : List (List Nat × Item), sizeP d ≤ n → RoundDict d) := by
  intro n
  induction n using Nat.strong_induction_on with
  | _ n ih =>
    refine ⟨fun t ht => ?_, fun l hl => ?_, fun d hd => ?_⟩
    · cases t with
      | String str => exact roundItem_string str
      | Integer i => exact roundItem_integer i
      | List l =>
        have h1 : 1 ≤ n := le_trans (sizeI_pos _) ht
        apply roundItem_list
        exact (ih (n - 1) (by omega)).2.1 l (by simp [sizeI] at ht; omega)
      | Dictionary d =>
        have h1 : 1 ≤ n := le_trans (sizeI_pos _) ht
        apply roundItem_dict
        exact (ih (n - 1) (by omega)).2.2 d (by simp [sizeI] at ht; omega)
    · cases l with
      | nil => exact roundList_nil
      | cons t ts =>
        have hsz : 1 + sizeI t + sizeL ts ≤ n := by simpa [sizeL] using hl
        have h1 : 1 ≤ n := by have := sizeI_pos t; omega
        exact roundList_cons t ts
          ((ih (n - 1) (by omega)).1 t (by have := sizeI_pos t; omega))
          ((ih (n - 1) (by omega)).2.1 ts (by omega))
    · cases d with
      | nil => exact roundDict_nil
      | cons p ps =>
        obtain ⟨k, v⟩ := p
        have hsz : 1 + sizeI v + sizeP ps ≤ n := by simpa [sizeP] using hd
        have h1 : 1 ≤ n := by have := sizeI_pos v; omega
        exact roundDict_cons k v ps
          ((ih (n - 1) (by omega)).1 v (by omega))
          ((ih (n - 1) (by omega)).2.2 ps (by omega))

theorem roundItem_all (t : Item) : RoundItem t :=
  (roundAll (sizeI t)).1 t le_rfl

theorem decodeRun_encodeItem (t : Item) (h : wfItem t = true) :
    decodeRun (encodeItem t) false
      = .ok [t] ⟨encodeItem t, 0 + (encodeItem t).length, false⟩ := by
  obtain ⟨b, hb, _⟩ := encodeItem_head t
  have hlp := encodeItem_length_pos t
  unfold decodeRun
  rw [decode_loop_succ]
  have hget : (DecState.mk (encodeItem t) 0 false).bytes.get?
      (DecState.mk (encodeItem t) 0 false).cursor = some b := by
    show (encodeItem t).get? 0 = some b
    rw [List.get?_eq_getElem?, ← List.head?_drop]
    simpa using hb
  rw [hget]
  have hitem := roundItem_all t (2 * (encodeItem t).length)
    (DecState.mk (encodeItem t) 0 false) [] b h (by simp) (by omega) hb
  simp only [hitem]
  obtain ⟨g2, hg2⟩ : ∃ g2, 2 * (encodeItem t).length = g2 + 1 :=
    ⟨2 * (encodeItem t).length - 1, by omega⟩
  rw [hg2, decode_loop_succ]
  have hnone : (DecState.mk (encodeItem t) (0 + (encodeItem t).length)
      false).bytes.get? (DecState.mk (encodeItem t) (0 + (encodeItem t).length)
      false).cursor = none := by
    show (encodeItem t).get? (0 + (encodeItem t).length) = none
    rw [List.get?_eq_getElem?, List.getElem?_eq_none (by omega)]
  rw [hnone]
  simp

theorem decodeD_encodeItem (t : Item) (h : wfItem t = true) :
    decodeD (encodeItem t) false = .ok [t] := by
  unfold decodeD
  rw [decodeRun_encodeItem t h]

/-! ### The `BTreeMap` sorted invariant holds for every collect -/

theorem keysSorted_cons_iff (a : List Nat × Item) (rest : List (List Nat × Item)) :
    keysSorted (a :: rest) = true ↔
      (match rest.head? with
       | none => True
       | some q => bytesLt a.1 q.1 = true) ∧ keysSorted rest = true := by
  cases rest with
  | nil => simp [keysSorted]
  | cons q qs =>
    obtain ⟨qk, qv⟩ := q
    obtain ⟨ak, av⟩ := a
    simp [keysSorted]

theorem btreeInsert_head? (k : List Nat) (v : Item) :
    ∀ m, (btreeInsert k v m).head? = some (k, v) ∨ (btreeInsert k v m).head? = m.head? := by
  intro m
  cases m with
  | nil => left; rfl
  | cons p rest =>
    obtain ⟨k', v'⟩ := p
    by_cases h1 : bytesLt k k' = true
    · left; rw [btreeInsert, if_pos h1]; rfl
    · by_cases h2 : k = k'
      · left; rw [btreeInsert, if_neg (by simp [h1]), if_pos h2]; rfl
      · right; rw [btreeInsert, if_neg (by simp [h1]), if_neg h2]; rfl

theorem btreeInsert_sorted (k : List Nat) (v : Item) :
    ∀ m, keysSorted m = true → keysSorted (btreeInsert k v m) = true := by
  intro m
  induction m with
  | nil => intro _; rfl
  | cons p rest ih =>
    intro hs
    obtain ⟨k', v'⟩ := p
    have hrest : keysSorted rest = true := keysSorted_cons_tail hs
    by_cases h1 : bytesLt k k' = true
    · rw [btreeInsert, if_pos h1]
      rw [keysSorted_cons_iff]
      exact ⟨by simp [h1], hs⟩
    · by_cases h2 : k = k'
      · rw [btreeInsert, if_neg (by simp [h1]), if_pos h2]
        rw [keysSorted_cons_iff]
        subst h2
        refine ⟨?_, hrest⟩
        have := (keysSorted_cons_iff (k, v') rest).mp hs
        exact this.1
      · rw [btreeInsert, if_neg (by simp [h1]), if_neg h2]
        rw [keysSorted_cons_iff]
        refine ⟨?_, ih hrest⟩
        have hk'k : bytesLt k' k = true := by
          rcases bytesLt_trichotomy k k' with h | h | h
          · exact absurd h h1
          · exact absurd h h2
          · exact h
        rcases btreeInsert_head? k v rest with hh | hh
        · rw [hh]
          exact hk'k
        · rw [hh]
          have := (keysSorted_cons_iff (k', v') rest).mp hs
          exact this.1

theorem btreeCollect_sorted_aux :
    ∀ ps m, keysSorted m = true →
      keysSorted (List.foldl
        (fun (m : List (List Nat × Item)) (p : List Nat × Item) =>
          btreeInsert p.1 p.2 m) m ps) = true := by
  intro ps
  induction ps with
  | nil => intro m hm; exact hm
  | cons p rest ih =>
    intro m hm
    exact ih (btreeInsert p.1 p.2 m) (btreeInsert_sorted p.1 p.2 m hm)

theorem btreeCollect_sorted (ps : List (List Nat × Item)) :
    keysSorted (btreeCollect ps) = true :=
  btreeCollect_sorted_aux ps [] rfl

theorem btreeInsert_mem (k : List Nat) (v : Item) :
    ∀ m x, x ∈ btreeInsert k v m → x = (k, v) ∨ x ∈ m := by
  intro m
  induction m with
  | nil =>
    intro x hx
    left
    simpa [btreeInsert] using hx
  | cons p rest ih =>
    intro x hx
    obtain ⟨k', v'⟩ := p
    by_cases h1 : bytesLt k k' = true
    · rw [btreeInsert, if_pos h1] at hx
      rcases List.mem_cons.mp hx with h | h
      · left; exact h
      · right; exact h
    · by_cases h2 : k = k'
      · rw [btreeInsert, if_neg (by simp [h1]), if_pos h2] at hx
        rcases List.mem_cons.mp hx with h | h
        · left; exact h
        · right; exact List.mem_cons_of_mem _ h
      · rw [btreeInsert, if_neg (by simp [h1]), if_neg h2] at hx
        rcases List.mem_cons.mp hx with h | h
        · right; rw [h]; exact List.mem_cons_self _ _
        · rcases ih x h with h3 | h3
          · left; exact h3
          · right; exact List.mem_cons_of_mem _ h3

theorem btreeCollect_mem_aux :
    ∀ ps m x, x ∈ List.foldl
        (fun (m : List (List Nat × Item)) (p : List Nat × Item) =>
          btreeInsert p.1 p.2 m) m ps →
      x ∈ m ∨ x ∈ ps := by
  intro ps
  induction ps with
  | nil => intro m x hx; left; exact hx
  | cons p rest ih =>
    intro m x hx
    rcases ih (btreeInsert p.1 p.2 m) x hx with h | h
    · rcases btreeInsert_mem p.1 p.2 m x h with h1 | h1
      · right; rw [h1]; exact List.mem_cons_self _ _
      · left; exact h1
    · right; exact List.mem_cons_of_mem _ h

theorem btreeCollect_mem (ps : List (List Nat × Item)) (x : List Nat × Item)
    (hx : x ∈ btreeCollect ps) : x ∈ ps := by
  rcases btreeCollect_mem_aux ps [] x hx with h | h
  · cases h
  · exact h

/-! ### `itemInv` in membership form -/

theorem itemsInv_iff (l : List Item) :
    itemsInv l = true ↔ ∀ t ∈ l, itemInv t = true := by
  induction l with
  | nil => simp [itemsInv]
  | cons t ts ih =>
    rw [itemsInv, Bool.and_eq_true, ih]
    constructor
    · rintro ⟨h1, h2⟩ u hu
      rcases List.mem_cons.mp hu with h | h
      · rw [h]; exact h1
      · exact h2 u h
    · intro h
      exact ⟨h t (List.mem_cons_self _ _), fun u hu => h u (List.mem_cons_of_mem _ hu)⟩

theorem pairsInv_iff (ps : List (List Nat × Item)) :
    pairsInv ps = true ↔ ∀ p ∈ ps, itemInv p.2 = true := by
  induction ps with
  | nil => simp [pairsInv]
  | cons p rest ih =>
    obtain ⟨k, v⟩ := p
    rw [pairsInv, Bool.and_eq_true, ih]
    constructor
    · rintro ⟨h1, h2⟩ q hq
      rcases List.mem_cons.mp hq with h | h
      · rw [h]; exact h1
      · exact h2 q h
    · intro h
      exact ⟨h (k, v) (List.mem_cons_self _ _), fun q hq => h q (List.mem_cons_of_mem _ hq)⟩

/-! ### Every decoded item satisfies the sorted-dictionary invariant -/

theorem decode_inv : ∀ f : Nat,
    (∀ s b t s', decode_item f s b = .ok t s' → itemInv t = true) ∧
    (∀ s acc l s', decode_list_loop f s acc = .ok l s' →
      itemsInv acc = true → itemsInv l = true) ∧
    (∀ s acc d s', decode_dict_loop f s acc = .ok d s' →
      pairsInv acc = true → pairsInv d = true) := by
  intro f
  induction f with
  | zero =>
    refine ⟨fun s b t s' h => ?_, fun s acc l s' h _ => ?_, fun s acc d s' h _ => ?_⟩
    · exact DRes.noConfusion h
    · exact DRes.noConfusion h
    · exact DRes.noConfusion h
  | succ f ih =>
    refine ⟨fun s b t s' h => ?_, fun s acc l s' h hacc => ?_, fun s acc d s' h hacc => ?_⟩
    · rw [decode_item_succ] at h
      split at h
      · split at h
        · injection h with h1 _
          subst h1
          rfl
        · exact DRes.noConfusion h
      · split at h
        · split at h
          · injection h with h1 _
            subst h1
            rfl
          · exact DRes.noConfusion h
        · split at h
          · split at h
            · rename_i items s1 heq
              injection h with h1 _
              subst h1
              show itemsInv items = true
              exact ih.2.1 _ _ _ _ heq rfl
            · exact DRes.noConfusion h
            · exact DRes.noConfusion h
          · split at h
            · split at h
              · rename_i pairs s1 heq
                injection h with h1 _
                subst h1
                show itemInv (.Dictionary (btreeCollect pairs)) = true
                rw [itemInv, Bool.and_eq_true]
                refine ⟨btreeCollect_sorted pairs, ?_⟩
                rw [pairsInv_iff]
                intro p hp
                have hmem := btreeCollect_mem pairs p hp
                have hp2 := ih.2.2 _ _ _ _ heq rfl
                exact (pairsInv_iff pairs).mp hp2 p hmem
              · exact DRes.noConfusion h
              · exact DRes.noConfusion h
            · exact DRes.noConfusion h
    · rw [decode_list_loop_succ] at h
      split at h
      · exact DRes.noConfusion h
      · split at h
        · injection h with h1 _
          subst h1
          exact hacc
        · split at h
          · rename_i it s1 heq
            refine ih.2.1 _ _ _ _ h ?_
            rw [itemsInv_iff]
            intro u hu
            rcases List.mem_append.mp hu with h2 | h2
            · exact (itemsInv_iff acc).mp hacc u h2
            · have h3 : u = it := by simpa using h2
              subst h3
              exact ih.1 _ _ _ _ heq
          · exact DRes.noConfusion h
          · exact DRes.noConfusion h
    · rw [decode_dict_loop_succ] at h
      split at h
      · exact DRes.noConfusion h
      · split at h
        · injection h with h1 _
          subst h1
          exact hacc
        · split at h
          · exact DRes.noConfusion h
          · exact DRes.noConfusion h
          · rename_i it s1 heq
            cases it with
            | String key =>
              simp only [] at h
              by_cases hc : (!s1.allow_unsorted_dictionaries &&
                  (match acc.getLast? with
                   | some (k, _) => bytesLt key k
                   | none => false)) = true
              · rw [if_pos hc] at h
                exact DRes.noConfusion h
              · rw [if_neg hc] at h
                split at h
                · exact DRes.noConfusion h
                · split at h
                  · rename_i v s2 heq2
                    refine ih.2.2 _ _ _ _ h ?_
                    rw [pairsInv_iff]
                    intro q hq
                    rcases List.mem_append.mp hq with h2 | h2
                    · exact (pairsInv_iff acc).mp hacc q h2
                    · have h3 : q = (key, v) := by simpa using h2
                      subst h3
                      exact ih.1 _ _ _ _ heq2
                  · exact DRes.noConfusion h
                  · exact DRes.noConfusion h
            | Integer i => exact DRes.noConfusion h
            | List l => exact DRes.noConfusion h
            | Dictionary dd => exact DRes.noConfusion h

theorem decode_loop_inv : ∀ f s acc l s', decode_loop f s acc = .ok l s' →
    itemsInv acc = true → itemsInv l = true := by
  intro f
  induction f with
  | zero =>
    intro s acc l s' h _
    exact DRes.noConfusion h
  | succ f ih =>
    intro s acc l s' h hacc
    rw [decode_loop_succ] at h
    split at h
    · injection h with h1 _
      subst h1
      exact hacc
    · split at h
      · rename_i it s1 heq
        refine ih _ _ _ _ h ?_
        rw [itemsInv_iff]
        intro u hu
        rcases List.mem_append.mp hu with h2 | h2
        · exact (itemsInv_iff acc).mp hacc u h2
        · have h3 : u = it := by simpa using h2
          subst h3
          exact (decode_inv f).1 _ _ _ _ heq
      · exact DRes.noConfusion h
      · exact DRes.noConfusion h

theorem decodeD_inv (bytes : List Nat) (allow : Bool) (items : List Item)
    (h : decodeD bytes allow = .ok items) : ∀ t ∈ items, itemInv t = true := by
  unfold decodeD at h
  split at h
  · rename_i l' s' heq
    injection h with h1
    subst h1
    exact (itemsInv_iff l').mp (decode_loop_inv _ _ _ _ _ heq rfl)
  · exact Except.noConfusion h
  · exact Except.noConfusion h

/-! ### Progress: every successful parse advances the cursor -/

theorem get?_some_lt {l : List Nat} {n b : Nat} (h : l.get? n = some b) :
    n < l.length := by
  by_contra hc
  rw [List.get?_eq_getElem?, List.getElem?_eq_none (by omega)] at h
  exact Option.noConfusion h

theorem read_bytes_progress (s : DecState) (stop : Nat) (pre : List Nat)
    (s1 : DecState) (h : read_bytes s stop = .ok (pre, s1)) :
    s.cursor < s1.cursor ∧ s1.bytes = s.bytes ∧
      s1.allow_unsorted_dictionaries = s.allow_unsorted_dictionaries := by
  unfold read_bytes at h
  split at h
  · exact Except.noConfusion h
  · rename_i pos heq
    injection h with h1
    injection h1 with h1a h1b
    rw [← h1b]
    refine ⟨?_, rfl, rfl⟩
    show s.cursor < s.cursor + pos + 1
    omega

theorem decode_string_progress (s : DecState) (str : List Nat) (s' : DecState)
    (h : decode_string s = .ok (str, s')) :
    s.cursor < s'.cursor ∧ s'.bytes = s.bytes ∧
      s'.allow_unsorted_dictionaries = s.allow_unsorted_dictionaries := by
  unfold decode_string at h
  split at h
  · exact Except.noConfusion h
  · rename_i pre s1 heq
    obtain ⟨hc, hb, ha⟩ := read_bytes_progress s 58 pre s1 heq
    split at h
    · exact Except.noConfusion h
    · rename_i i heqp
      simp only [] at h
      split at h
      · injection h with h1
        injection h1 with h1a h1b
        rw [← h1b]
        refine ⟨?_, hb, ha⟩
        show s.cursor < s1.cursor + (i % 2 ^ 64).toNat
        omega
      · exact Except.noConfusion h

theorem decode_integer_progress (s : DecState) (i : Int) (s' : DecState)
    (h : decode_integer s = .ok (i, s')) :
    s.cursor < s'.cursor ∧ s'.bytes = s.bytes ∧
      s'.allow_unsorted_dictionaries = s.allow_unsorted_dictionaries := by
  unfold decode_integer at h
  rcases hrb : read_bytes { s with cursor := s.cursor + 1 } 101 with e | ⟨pre, s1⟩
  · rw [hrb] at h
    exact Except.noConfusion h
  · rw [hrb] at h
    simp only [Except.bind] at h
    obtain ⟨hc, hb, ha⟩ := read_bytes_progress _ 101 pre s1 hrb
    have hc' : s.cursor + 1 < s1.cursor := hc
    have hb' : s1.bytes = s.bytes := hb
    have ha' : s1.allow_unsorted_dictionaries = s.allow_unsorted_dictionaries := ha
    rcases hp : parse_i64 pre with e | v
    · rw [hp] at h
      exact Except.noConfusion h
    · rw [hp] at h
      simp only [Except.map] at h
      injection h with h1
      injection h1 with h1a h1b
      rw [← h1b]
      exact ⟨by omega, hb', ha'⟩

theorem decode_progress : ∀ f : Nat,
    (∀ s b t s', decode_item f s b = .ok t s' →
      s.cursor < s'.cursor ∧ s'.bytes = s.bytes ∧
        s'.allow_unsorted_dictionaries = s.allow_unsorted_dictionaries) ∧
    (∀ s acc l s', decode_list_loop f s acc = .ok l s' →
      s.cursor < s'.cursor ∧ s'.bytes = s.bytes ∧
        s'.allow_unsorted_dictionaries = s.allow_unsorted_dictionaries) ∧
    (∀ s acc d s', decode_dict_loop f s acc = .ok d s' →
      s.cursor < s'.cursor ∧ s'.bytes = s.bytes ∧
        s'.allow_unsorted_dictionaries = s.allow_unsorted_dictionaries) := by
  intro f
  induction f with
  | zero =>
    refine ⟨fun s b t s' h => ?_, fun s acc l s' h => ?_, fun s acc d s' h => ?_⟩
    · exact DRes.noConfusion h
    · exact DRes.noConfusion h
    · exact DRes.noConfusion h
  | succ f ih =>
    refine ⟨fun s b t s' h => ?_, fun s acc l s' h => ?_, fun s acc d s' h => ?_⟩
    · rw [decode_item_succ] at h
      split at h
      · split at h
        · rename_i str s1 heq
          injection h with h1 h2
          rw [← h2]
          exact decode_string_progress s str s1 heq
        · exact DRes.noConfusion h
      · split at h
        · split at h
          · rename_i i s1 heq
            injection h with h1 h2
            rw [← h2]
            exact decode_integer_progress s i s1 heq
          · exact DRes.noConfusion h
        · split at h
          · split at h
            · rename_i items s1 heq
              injection h with h1 h2
              rw [← h2]
              obtain ⟨hc, hb, ha⟩ := ih.2.1 _ _ _ _ heq
              have hc' : s.cursor + 1 < s1.cursor := hc
              exact ⟨by omega, hb, ha⟩
            · exact DRes.noConfusion h
            · exact DRes.noConfusion h
          · split at h
            · split at h
              · rename_i pairs s1 heq
                injection h with h1 h2
                rw [← h2]
                obtain ⟨hc, hb, ha⟩ := ih.2.2 _ _ _ _ heq
                have hc' : s.cursor + 1 < s1.cursor := hc
                exact ⟨by omega, hb, ha⟩
              · exact DRes.noConfusion h
              · exact DRes.noConfusion h
            · exact DRes.noConfusion h
    · rw [decode_list_loop_succ] at h
      split at h
      · exact DRes.noConfusion h
      · split at h
        · injection h with h1 h2
          rw [← h2]
          exact ⟨Nat.lt_succ_self _, rfl, rfl⟩
        · split at h
          · rename_i it s1 heq
            obtain ⟨hc1, hb1, ha1⟩ := ih.1 _ _ _ _ heq
            obtain ⟨hc2, hb2, ha2⟩ := ih.2.1 _ _ _ _ h
            exact ⟨by omega, hb2.trans hb1, ha2.trans ha1⟩
          · exact DRes.noConfusion h
          · exact DRes.noConfusion h
    · rw [decode_dict_loop_succ] at h
      split at h
      · exact DRes.noConfusion h
      · split at h
        · injection h with h1 h2
          rw [← h2]
          exact ⟨Nat.lt_succ_self _, rfl, rfl⟩
        · split at h
          · exact DRes.noConfusion h
          · exact DRes.noConfusion h
          · rename_i it s1 heq
            cases it with
            | String key =>
              simp only [] at h
              by_cases hcond : (!s1.allow_unsorted_dictionaries &&
                  (match acc.getLast? with
                   | some (k, _) => bytesLt key k
                   | none => false)) = true
              · rw [if_pos hcond] at h
                exact DRes.noConfusion h
              · rw [if_neg hcond] at h
                split at h
                · exact DRes.noConfusion h
                · split at h
                  · rename_i v s2 heq2
                    obtain ⟨hc1, hb1, ha1⟩ := ih.1 _ _ _ _ heq
                    obtain ⟨hc2, hb2, ha2⟩ := ih.1 _ _ _ _ heq2
                    obtain ⟨hc3, hb3, ha3⟩ := ih.2.2 _ _ _ _ h
                    exact ⟨by omega, (hb3.trans hb2).trans hb1,
                      (ha3.trans ha2).trans ha1⟩
                  · exact DRes.noConfusion h
                  · exact DRes.noConfusion h
            | Integer i => exact DRes.noConfusion h
            | List l => exact DRes.noConfusion h
            | Dictionary dd => exact DRes.noConfusion h

/-! ### The fuel `2 * length + 1` never runs out -/

theorem decode_nofuel : ∀ f : Nat,
    (∀ s b, s.bytes.get? s.cursor = some b →
      2 * (s.bytes.length - s.cursor) ≤ f → decode_item f s b ≠ .fuelOut) ∧
    (∀ s acc, 2 * (s.bytes.length - s.cursor) + 1 ≤ f →
      decode_list_loop f s acc ≠ .fuelOut) ∧
    (∀ s acc, 2 * (s.bytes.length - s.cursor) + 1 ≤ f →
      decode_dict_loop f s acc ≠ .fuelOut) := by
  intro f
  induction f with
  | zero =>
    refine ⟨fun s b hget hf => ?_, fun s acc hf => ?_, fun s acc hf => ?_⟩
    · have := get?_some_lt hget
      omega
    · omega
    · omega
  | succ f ih =>
    refine ⟨fun s b hget hf => ?_, fun s acc hf => ?_, fun s acc hf => ?_⟩
    · rw [decode_item_succ]
      have hcl := get?_some_lt hget
      split
      · split
        · intro hc; exact DRes.noConfusion hc
        · intro hc; exact DRes.noConfusion hc
      · split
        · split
          · intro hc; exact DRes.noConfusion hc
          · intro hc; exact DRes.noConfusion hc
        · split
          · split
            · intro hc; exact DRes.noConfusion hc
            · intro hc; exact DRes.noConfusion hc
            · rename_i heq
              exfalso
              refine ih.2.1 { s with cursor := s.cursor + 1 } [] ?_ heq
              show 2 * (s.bytes.length - (s.cursor + 1)) + 1 ≤ f
              omega
          · split
            · split
              · intro hc; exact DRes.noConfusion hc
              · intro hc; exact DRes.noConfusion hc
              · rename_i heq
                exfalso
                refine ih.2.2 { s with cursor := s.cursor + 1 } [] ?_ heq
                show 2 * (s.bytes.length - (s.cursor + 1)) + 1 ≤ f
                omega
            · intro hc; exact DRes.noConfusion hc
    · rw [decode_list_loop_succ]
      split
      · intro hc; exact DRes.noConfusion hc
      · rename_i b hget
        split
        · intro hc; exact DRes.noConfusion hc
        · split
          · rename_i it s1 heq
            obtain ⟨hc1, hb1, ha1⟩ := (decode_progress f).1 _ _ _ _ heq
            have hcl := get?_some_lt hget
            refine ih.2.1 s1 (acc ++ [it]) ?_
            rw [hb1]
            omega
          · intro hc; exact DRes.noConfusion hc
          · rename_i heq
            have hcl := get?_some_lt hget
            exact absurd heq (ih.1 s b hget (by omega))
    · rw [decode_dict_loop_succ]
      split
      · intro hc; exact DRes.noConfusion hc
      · rename_i b hget
        have hcl := get?_some_lt hget
        split
        · intro hc; exact DRes.noConfusion hc
        · split
          · intro hc; exact DRes.noConfusion hc
          · rename_i heq
            exact absurd heq (ih.1 s b hget (by omega))
          · rename_i it s1 heq
            obtain ⟨hc1, hb1, ha1⟩ := (decode_progress f).1 _ _ _ _ heq
            cases it with
            | String key =>
              simp only []
              by_cases hcond : (!s1.allow_unsorted_dictionaries &&
                  (match acc.getLast? with
                   | some (k, _) => bytesLt key k
                   | none => false)) = true
              · rw [if_pos hcond]
                intro hc; exact DRes.noConfusion hc
              · rw [if_neg hcond]
                split
                · intro hc; exact DRes.noConfusion hc
                · rename_i b2 hget2
                  split
                  · rename_i v s2 heq2
                    obtain ⟨hc2, hb2, ha2⟩ := (decode_progress f).1 _ _ _ _ heq2
                    refine ih.2.2 s2 (acc ++ [(key, v)]) ?_
                    rw [hb2, hb1]
                    omega
                  · intro hc; exact DRes.noConfusion hc
                  · rename_i heq2
                    refine absurd heq2 (ih.1 s1 b2 hget2 ?_)
                    rw [hb1]
                    omega
            | Integer i => intro hc; exact DRes.noConfusion hc
            | List l => intro hc; exact DRes.noConfusion hc
            | Dictionary dd => intro hc; exact DRes.noConfusion hc

theorem decode_loop_nofuel : ∀ f s acc,
    2 * (s.bytes.length - s.cursor) + 1 ≤ f → decode_loop f s acc ≠ .fuelOut := by
  intro f
  induction f with
  | zero => intro s acc hf; omega
  | succ f ih =>
    intro s acc hf
    rw [decode_loop_succ]
    split
    · intro hc; exact DRes.noConfusion hc
    · rename_i b hget
      have hcl := get?_some_lt hget
      split
      · rename_i it s1 heq
        obtain ⟨hc1, hb1, ha1⟩ := (decode_progress f).1 _ _ _ _ heq
        refine ih s1 (acc ++ [it]) ?_
        rw [hb1]
        omega
      · intro hc; exact DRes.noConfusion hc
      · rename_i heq
        exact absurd heq ((decode_nofuel f).1 s b hget (by omega))

theorem decodeRun_ne_fuelOut (bytes : List Nat) (allow : Bool) :
    decodeRun bytes allow ≠ .fuelOut := by
  unfold decodeRun
  refine decode_loop_nofuel _ ⟨bytes, 0, allow⟩ [] ?_
  show 2 * (bytes.length - 0) + 1 ≤ 2 * bytes.length + 1
  omega

/-! ### Duplicate keys: the collect keeps the last occurrence -/

theorem assocLookup_insert_self (k : List Nat) (v : Item) :
    ∀ m, assocLookup k (btreeInsert k v m) = some v := by
  intro m
  induction m with
  | nil => simp [btreeInsert, assocLookup]
  | cons p rest ih =>
    obtain ⟨k1, v1⟩ := p
    by_cases h1 : bytesLt k k1 = true
    · rw [btreeInsert, if_pos h1, assocLookup, if_pos rfl]
    · by_cases h2 : k = k1
      · rw [btreeInsert, if_neg (by simp [h1]), if_pos h2, assocLookup, if_pos rfl]
      · rw [btreeInsert, if_neg (by simp [h1]), if_neg h2, assocLookup,
          if_neg (fun he => h2 he.symm), ih]

theorem assocLookup_insert_other (k k' : List Nat) (v : Item) (h : k' ≠ k) :
    ∀ m, assocLookup k (btreeInsert k' v m) = assocLookup k m := by
  intro m
  induction m with
  | nil => simp [btreeInsert, assocLookup, h]
  | cons p rest ih =>
    obtain ⟨k1, v1⟩ := p
    by_cases h1 : bytesLt k' k1 = true
    · rw [btreeInsert, if_pos h1, assocLookup, if_neg h]
    · by_cases h2 : k' = k1
      · subst h2
        rw [btreeInsert, if_neg (by simp [h1]), if_pos rfl, assocLookup, if_neg h,
          assocLookup, if_neg h]
      · rw [btreeInsert, if_neg (by simp [h1]), if_neg h2, assocLookup, assocLookup, ih]

theorem btreeCollect_append_singleton (ps : List (List Nat × Item))
    (p : List Nat × Item) :
    btreeCollect (ps ++ [p]) = btreeInsert p.1 p.2 (btreeCollect ps) := by
  unfold btreeCollect
  rw [List.foldl_append]
  rfl

theorem assocLookup_collect :
    ∀ ps k, assocLookup k (btreeCollect ps) = assocLookup k ps.reverse := by
  intro ps
  induction ps using List.reverseRecOn with
  | nil => intro k; rfl
  | append_singleton ps p ih =>
    intro k
    obtain ⟨pk, pv⟩ := p
    rw [btreeCollect_append_singleton, List.reverse_append]
    by_cases h : pk = k
    · subst h
      rw [assocLookup_insert_self]
      simp [assocLookup]
    · rw [assocLookup_insert_other _ _ _ h, ih]
      simp [assocLookup, h]

theorem decode_string_spec (s : DecState) (pre rest : List Nat) (n : Int)
    (hd : s.bytes.drop s.cursor = pre ++ 58 :: rest)
    (hpre : ∀ b ∈ pre, b ≠ 58)
    (hp : parse_i64 pre = .ok n) (h0 : 0 ≤ n) (hlt : n < 2^63) :
    decode_string s = if n.toNat ≤ rest.length
      then .ok (rest.take n.toNat,
        { s with cursor := s.cursor + pre.length + 1 + n.toNat })
      else .error ⟨.UnexpectedEndOfBuffer⟩ := by
  have hrb := read_bytes_spec s 58 pre rest hd hpre
  have hcle : s.cursor ≤ s.bytes.length := by
    by_contra hcc
    have hnil : s.bytes.drop s.cursor = [] := List.drop_eq_nil_of_le (by omega)
    rw [hnil] at hd
    exact absurd hd.symm (by simp)
  have hlen_drop : s.bytes.length - s.cursor = pre.length + 1 + rest.length := by
    have hh := congrArg List.length hd
    simp [List.length_drop] at hh
    omega
  have hcast : (n % ((2:Int)^64)).toNat = n.toNat := by
    rw [Int.emod_eq_of_lt h0 (by omega)]
  have hdrop2 : s.bytes.drop (s.cursor + pre.length + 1) = rest := by
    rw [show s.cursor + pre.length + 1 = s.cursor + (pre.length + 1) by omega,
      ← List.drop_drop, hd,
      show pre ++ 58 :: rest = (pre ++ [58]) ++ rest by simp,
      show pre.length + 1 = (pre ++ [58]).length by simp,
      List.drop_left]
  unfold decode_string
  simp only [hrb, hp, hcast]
  by_cases hn : n.toNat ≤ rest.length
  · rw [if_pos (by omega), if_pos hn, hdrop2]
  · rw [if_neg (by omega), if_neg hn]

/-! ### Claim theorems -/

/-- C1: for every item tree built from the public constructors (byte-strings,
64-bit integers, lists, key-sorted dictionaries), decoding the bytes produced
by `encode` under default settings succeeds and returns a one-element
sequence equal to the original tree (whose dictionaries iterate in ascending
byte-lexicographic key order by well-formedness). -/
theorem claim1_roundtrip (t : Item) (h : wfItem t = true) :
    decodeD (encodeItem t) false = .ok [t] :=
  decodeD_encodeItem t h

theorem claim1_roundtrip_witness :
    wfItem (Item.Dictionary [(strBytes "bar", Item.String (strBytes "spam")),
      (strBytes "foo", Item.List [Item.Integer 42])]) = true ∧
    decodeD (encodeItem (Item.Dictionary
      [(strBytes "bar", Item.String (strBytes "spam")),
       (strBytes "foo", Item.List [Item.Integer 42])])) false
      = .ok [Item.Dictionary [(strBytes "bar", Item.String (strBytes "spam")),
        (strBytes "foo", Item.List [Item.Integer 42])]] :=
  ⟨by decide, claim1_roundtrip _ (by decide)⟩

/-- C2: every dictionary produced by decoding (under either setting)
satisfies the sorted-keys invariant recursively; the encoder emits a
dictionary as `d` followed by the (key-encoding, value-encoding) pairs in
the map's own iteration order with no re-sorting; and decoding unsorted
input under the relaxed setting yields a dictionary that iterates sorted,
not in input order. -/
theorem claim2_dict_invariant :
    (∀ bytes allow items, decodeD bytes allow = .ok items →
      ∀ t ∈ items, itemInv t = true) ∧
    (∀ d, encodeItem (.Dictionary d) = 100 :: encodePairs d ++ [101]) ∧
    (∀ k v ps, encodePairs ((k, v) :: ps)
      = encodeString k ++ encodeItem v ++ encodePairs ps) ∧
    (decodeD (strBytes "d2:ccle2:bblee") true
      = .ok [.Dictionary [(strBytes "bb", .List []), (strBytes "cc", .List [])]]) :=
  ⟨decodeD_inv, fun _ => rfl, fun _ _ _ => rfl, rfl⟩

theorem claim2_dict_invariant_witness :
    itemInv (Item.Dictionary [(strBytes "bb", Item.List []),
      (strBytes "cc", Item.List [])]) = true :=
  claim2_dict_invariant.1 (strBytes "d2:ccle2:bblee") true
    [Item.Dictionary [(strBytes "bb", Item.List []), (strBytes "cc", Item.List [])]]
    (by rfl)
    (Item.Dictionary [(strBytes "bb", Item.List []), (strBytes "cc", Item.List [])])
    (List.mem_cons_self _ _)

/-- C3: the integer production's canonicalization rules apply in source
order: a text of length ≥ 2 after an optional `-` starting with `0` fails
with `LeadingZeros` (so both `i007e` and `i-03e` do, the leading-zeros
pattern firing before the negative-zero one); exactly `-0` fails with
`NegativeZero`; any other text is handed to the Rust `i64` parser, whose
failures (empty, bare `-`, non-digits, invalid UTF-8, out of range) become
`InvalidData`; and `i0e` decodes to integer 0. -/
theorem claim3_integer_rules :
    (∀ u rest, parse_i64 (48 :: u :: rest) = .error ⟨.LeadingZeros⟩) ∧
    (∀ u rest, parse_i64 (45 :: 48 :: u :: rest) = .error ⟨.LeadingZeros⟩) ∧
    (parse_i64 [45, 48] = .error ⟨.NegativeZero⟩) ∧
    (∀ bs, (∀ u rest, bs ≠ 48 :: u :: rest) →
      (∀ u rest, bs ≠ 45 :: 48 :: u :: rest) → bs ≠ [45, 48] →
      parse_i64 bs = match parseRustI64 bs with
        | some v => .ok v
        | none => .error ⟨.InvalidData⟩) ∧
    (decodeD (strBytes "i007e") false = .error ⟨.LeadingZeros⟩) ∧
    (decodeD (strBytes "i-03e") false = .error ⟨.LeadingZeros⟩) ∧
    (decodeD (strBytes "i-0e") false = .error ⟨.NegativeZero⟩) ∧
    (decodeD (strBytes "ie") false = .error ⟨.InvalidData⟩) ∧
    (decodeD (strBytes "i-e") false = .error ⟨.InvalidData⟩) ∧
    (decodeD (strBytes "i0e") false = .ok [.Integer 0]) := by
  refine ⟨fun u rest => rfl, fun u rest => rfl, rfl, ?_, rfl, rfl, rfl, rfl, rfl, rfl⟩
  intro bs h1 h2 h3
  unfold parse_i64
  split
  · exact absurd rfl (h2 _ _)
  · exact absurd rfl (h1 _ _)
  · exact absurd rfl h3
  · rfl

theorem claim3_integer_rules_witness : parse_i64 [53] = Except.ok 5 :=
  (claim3_integer_rules.2.2.2.1 [53] (by simp) (by simp) (by simp)).trans (by rfl)

/-- C5: the byte-string production reads the bytes before the next `:` as a
decimal length and consumes exactly that many content bytes unmodified;
it fails with `UnexpectedEndOfBuffer` when no `:` occurs before buffer end,
and when fewer content bytes remain than the declared length. -/
theorem claim5_string_production :
    (∀ s : DecState, (∀ b ∈ s.bytes.drop s.cursor, b ≠ 58) →
      decode_string s = .error ⟨.UnexpectedEndOfBuffer⟩) ∧
    (∀ (s : DecState) (pre rest : List Nat) (n : Int),
      s.bytes.drop s.cursor = pre ++ 58 :: rest →
      (∀ b ∈ pre, b ≠ 58) → parse_i64 pre = .ok n → 0 ≤ n → n < 2^63 →
      decode_string s = if n.toNat ≤ rest.length
        then .ok (rest.take n.toNat,
          { s with cursor := s.cursor + pre.length + 1 + n.toNat })
        else .error ⟨.UnexpectedEndOfBuffer⟩) ∧
    (decodeD (strBytes "4:spam") false = .ok [.String (strBytes "spam")]) ∧
    (decodeD (strBytes "7:foo") false = .error ⟨.UnexpectedEndOfBuffer⟩) := by
  refine ⟨?_, decode_string_spec, rfl, rfl⟩
  intro s h
  unfold decode_string
  rw [read_bytes_none s 58 h]

theorem claim5_string_production_witness :
    decode_string ⟨strBytes "abc", 0, false⟩ = .error ⟨.UnexpectedEndOfBuffer⟩ :=
  claim5_string_production.1 ⟨strBytes "abc", 0, false⟩ (by decide)

theorem decode_loop_progress : ∀ f s acc l s', decode_loop f s acc = .ok l s' →
    s.cursor ≤ s'.cursor ∧ s'.bytes = s.bytes := by
  intro f
  induction f with
  | zero => intro s acc l s' h; exact DRes.noConfusion h
  | succ f ih =>
    intro s acc l s' h
    rw [decode_loop_succ] at h
    split at h
    · injection h with h1 h2
      rw [← h2]
      exact ⟨le_rfl, rfl⟩
    · split at h
      · rename_i it s1 heq
        obtain ⟨hc1, hb1, _⟩ := (decode_progress f).1 _ _ _ _ heq
        obtain ⟨hc2, hb2⟩ := ih _ _ _ _ h
        exact ⟨by omega, hb2.trans hb1⟩
      · exact DRes.noConfusion h
      · exact DRes.noConfusion h

/-- C4: in the dictionary production under default settings, a step fails
with `UnsortedDictionary` exactly when the newly parsed key is strictly
below the previously accepted key: if it is, the step errors before parsing
the value; if the check's guard is false (previous key not greater — in
particular an equal key — or the `UnsortedDictionaries` setting active),
the step proceeds directly to the value parse with no ordering error. -/
theorem claim4_unsorted_check :
    (∀ (f : Nat) (s : DecState) (acc : List (List Nat × Item)) (b : Nat)
        (key : List Nat) (s1 : DecState) (pk : List Nat) (pv : Item),
      s.bytes.get? s.cursor = some b → b ≠ 101 →
      decode_item f s b = .ok (.String key) s1 →
      acc.getLast? = some (pk, pv) →
      s1.allow_unsorted_dictionaries = false →
      bytesLt key pk = true →
      decode_dict_loop (f + 1) s acc = .err ⟨.UnsortedDictionary⟩) ∧
    (∀ (f : Nat) (s : DecState) (acc : List (List Nat × Item)) (b : Nat)
        (key : List Nat) (s1 : DecState),
      s.bytes.get? s.cursor = some b → b ≠ 101 →
      decode_item f s b = .ok (.String key) s1 →
      (!s1.allow_unsorted_dictionaries &&
        (match acc.getLast? with
         | some (k, _) => bytesLt key k
         | none => false)) = false →
      decode_dict_loop (f + 1) s acc =
        (match s1.bytes.get? s1.cursor with
         | none => .err ⟨.UnexpectedEndOfBuffer⟩
         | some b2 =>
           match decode_item f s1 b2 with
           | .ok v s2 => decode_dict_loop f s2 (acc ++ [(key, v)])
           | .err e => .err e
           | .fuelOut => .fuelOut)) ∧
    (decodeD (strBytes "d2:ccle2:bblee") false = .error ⟨.UnsortedDictionary⟩) ∧
    (decodeD (strBytes "d2:aai1e2:aai2ee") false
      = .ok [.Dictionary [(strBytes "aa", .Integer 2)]]) ∧
    (decodeD (strBytes "d2:ccle2:bblee") true
      = .ok [.Dictionary [(strBytes "bb", .List []), (strBytes "cc", .List [])]]) := by
  refine ⟨?_, ?_, rfl, rfl, rfl⟩
  · intro f s acc b key s1 pk pv hget hb hitem hlast hallow hlt
    rw [decode_dict_loop_succ]
    simp only [hget]
    rw [if_neg hb]
    simp only [hitem]
    have hcond : (!s1.allow_unsorted_dictionaries &&
        (match acc.getLast? with
         | some (k, _) => bytesLt key k
         | none => false)) = true := by
      rw [hallow, hlast]
      simp [hlt]
    rw [if_pos hcond]
  · intro f s acc b key s1 hget hb hitem hcond
    rw [decode_dict_loop_succ]
    simp only [hget]
    rw [if_neg hb]
    simp only [hitem]
    rw [if_neg (by rw [hcond]; simp)]

theorem claim4_unsorted_check_witness :
    decode_dict_loop 2 ⟨strBytes "2:bb", 0, false⟩
      [(strBytes "cc", Item.List [])] = .err ⟨.UnsortedDictionary⟩ :=
  claim4_unsorted_check.1 1 ⟨strBytes "2:bb", 0, false⟩
    [(strBytes "cc", Item.List [])] 50 (strBytes "bb")
    ⟨strBytes "2:bb", 4, false⟩ (strBytes "cc") (Item.List [])
    (by rfl) (by decide) (by rfl) (by rfl) (by rfl) (by decide)

/-- C6: the list production consumes the leading `l`, then parses items
repeatedly, accumulating them in encounter order, until the next unconsumed
byte is `e` (consumed); exhaustion before an `e` fails with
`UnexpectedEndOfBuffer`; `le` is the empty list, `li17e3:fooe` is
`[17, "foo"]`, and `l4e` fails with `UnexpectedEndOfBuffer` or
`UnexpectedByte`. -/
theorem claim6_list_production :
    (∀ f s, decode_item (f + 1) s 108 =
      match decode_list_loop f { s with cursor := s.cursor + 1 } [] with
      | .ok items s' => .ok (.List items) s'
      | .err e => .err e
      | .fuelOut => .fuelOut) ∧
    (∀ f s acc, s.bytes.get? s.cursor = none →
      decode_list_loop (f + 1) s acc = .err ⟨.UnexpectedEndOfBuffer⟩) ∧
    (∀ f s acc, s.bytes.get? s.cursor = some 101 →
      decode_list_loop (f + 1) s acc = .ok acc { s with cursor := s.cursor + 1 }) ∧
    (∀ f s acc b it s', s.bytes.get? s.cursor = some b → b ≠ 101 →
      decode_item f s b = .ok it s' →
      decode_list_loop (f + 1) s acc = decode_list_loop f s' (acc ++ [it])) ∧
    (∀ f s acc b e, s.bytes.get? s.cursor = some b → b ≠ 101 →
      decode_item f s b = .err e →
      decode_list_loop (f + 1) s acc = .err e) ∧
    (decodeD (strBytes "le") false = .ok [.List []]) ∧
    (decodeD (strBytes "li17e3:fooe") false
      = .ok [.List [.Integer 17, .String (strBytes "foo")]]) ∧
    (decodeD (strBytes "l4e") false = .error ⟨.UnexpectedEndOfBuffer⟩ ∨
      decodeD (strBytes "l4e") false = .error ⟨.UnexpectedByte 52⟩) := by
  refine ⟨fun f s => rfl, ?_, ?_, ?_, ?_, rfl, rfl, Or.inl rfl⟩
  · intro f s acc h
    rw [decode_list_loop_succ]
    simp only [h]
  · intro f s acc h
    rw [decode_list_loop_succ]
    simp only [h]
    simp
  · intro f s acc b it s' hget hb hitem
    rw [decode_list_loop_succ]
    simp only [hget]
    rw [if_neg hb]
    simp only [hitem]
  · intro f s acc b e hget hb hitem
    rw [decode_list_loop_succ]
    simp only [hget]
    rw [if_neg hb]
    simp only [hitem]

theorem claim6_list_production_witness :
    decode_list_loop 1 ⟨[], 0, false⟩ [] = .err ⟨.UnexpectedEndOfBuffer⟩ :=
  claim6_list_production.2.1 0 ⟨[], 0, false⟩ [] (by rfl)

/-- C7: `decode` parses zero or more concatenated top-level values until
the buffer is exhausted, returning them in order (the empty buffer yields
the empty sequence, `3:foo4:barr` yields byte-strings `foo` and `barr`);
the first malformed item aborts with that item's error, discarding the
items already parsed. -/
theorem claim7_decode_top :
    (∀ f s acc, s.bytes.get? s.cursor = none →
      decode_loop (f + 1) s acc = .ok acc s) ∧
    (∀ f s acc b it s', s.bytes.get? s.cursor = some b →
      decode_item f s b = .ok it s' →
      decode_loop (f + 1) s acc = decode_loop f s' (acc ++ [it])) ∧
    (∀ f s acc b e, s.bytes.get? s.cursor = some b →
      decode_item f s b = .err e → decode_loop (f + 1) s acc = .err e) ∧
    (decodeD (strBytes "") false = .ok []) ∧
    (decodeD (strBytes "3:foo4:barr") false
      = .ok [.String (strBytes "foo"), .String (strBytes "barr")]) ∧
    (decodeD (strBytes "3:fooi-0e") false = .error ⟨.NegativeZero⟩) := by
  refine ⟨?_, ?_, ?_, rfl, rfl, rfl⟩
  · intro f s acc h
    rw [decode_loop_succ]
    simp only [h]
  · intro f s acc b it s' hget hitem
    rw [decode_loop_succ]
    simp only [hget, hitem]
  · intro f s acc b e hget hitem
    rw [decode_loop_succ]
    simp only [hget, hitem]

theorem claim7_decode_top_witness :
    decode_loop 1 ⟨[], 0, false⟩ [] = .ok [] ⟨[], 0, false⟩ :=
  claim7_decode_top.1 0 ⟨[], 0, false⟩ [] (by rfl)

/-- C8: in the dictionary production, whenever the item parsed in key
position is not a byte-string, decoding fails with `InvalidDictionaryKey`,
under both the default and the `UnsortedDictionaries` settings. -/
theorem claim8_invalid_key :
    (∀ f s acc b it s1, s.bytes.get? s.cursor = some b → b ≠ 101 →
      decode_item f s b = .ok it s1 → (∀ str, it ≠ .String str) →
      decode_dict_loop (f + 1) s acc = .err ⟨.InvalidDictionaryKey⟩) ∧
    (decodeD (strBytes "dlei1ee") false = .error ⟨.InvalidDictionaryKey⟩) ∧
    (decodeD (strBytes "dlei1ee") true = .error ⟨.InvalidDictionaryKey⟩) ∧
    (decodeD (strBytes "di1ei2ee") false = .error ⟨.InvalidDictionaryKey⟩) ∧
    (decodeD (strBytes "di1ei2ee") true = .error ⟨.InvalidDictionaryKey⟩) := by
  refine ⟨?_, rfl, rfl, rfl, rfl⟩
  intro f s acc b it s1 hget hb hitem hnotstr
  rw [decode_dict_loop_succ]
  simp only [hget]
  rw [if_neg hb]
  cases it with
  | String str => exact absurd rfl (hnotstr str)
  | Integer i => simp only [hitem]
  | List l => simp only [hitem]
  | Dictionary dd => simp only [hitem]

theorem claim8_invalid_key_witness :
    decode_dict_loop 2 ⟨strBytes "i1e", 0, false⟩ []
      = .err ⟨.InvalidDictionaryKey⟩ :=
  claim8_invalid_key.1 1 ⟨strBytes "i1e", 0, false⟩ [] 105 (Item.Integer 1)
    ⟨strBytes "i1e", 3, false⟩ (by rfl) (by decide) (by rfl)
    (fun str h => Item.noConfusion h)

/-- C9: equal keys pass the ordering check under either setting, and the
resulting dictionary maps a duplicated key to the value of its last
occurrence: looking a key up in the collected map is looking it up in the
reversed insertion sequence, and the concrete duplicate inputs decode to
the last value. -/
theorem claim9_duplicate_keys :
    (∀ ps k, assocLookup k (btreeCollect ps) = assocLookup k ps.reverse) ∧
    (decodeD (strBytes "d2:aai1e2:aai2ee") false
      = .ok [.Dictionary [(strBytes "aa", .Integer 2)]]) ∧
    (decodeD (strBytes "d2:aai1e2:aai2ee") true
      = .ok [.Dictionary [(strBytes "aa", .Integer 2)]]) ∧
    (decodeD (strBytes "d2:aai1e2:aai2e2:bbi7ee") false
      = .ok [.Dictionary [(strBytes "aa", .Integer 2), (strBytes "bb", .Integer 7)]]) :=
  ⟨assocLookup_collect, rfl, rfl, rfl⟩

/-- C10: decoding terminates on every finite buffer under every setting:
the fuel `2 * length + 1` given to the embedded recursion is never
exhausted, every successful item parse strictly advances the cursor while
preserving the buffer, and each loop's successful exit has advanced the
cursor as well. -/
theorem claim10_termination :
    (∀ bytes allow, decodeRun bytes allow ≠ .fuelOut) ∧
    (∀ f s b t s', decode_item f s b = .ok t s' →
      s.cursor < s'.cursor ∧ s'.bytes = s.bytes) ∧
    (∀ f s acc l s', decode_list_loop f s acc = .ok l s' → s.cursor < s'.cursor) ∧
    (∀ f s acc d s', decode_dict_loop f s acc = .ok d s' → s.cursor < s'.cursor) ∧
    (∀ f s acc l s', decode_loop f s acc = .ok l s' →
      s.cursor ≤ s'.cursor ∧ s'.bytes = s.bytes) :=
  ⟨decodeRun_ne_fuelOut,
   fun f s b t s' h => ⟨((decode_progress f).1 s b t s' h).1,
     ((decode_progress f).1 s b t s' h).2.1⟩,
   fun f s acc l s' h => ((decode_progress f).2.1 s acc l s' h).1,
   fun f s acc d s' h => ((decode_progress f).2.2 s acc d s' h).1,
   decode_loop_progress⟩

theorem claim10_termination_witness :
    (0 : Nat) < 3 ∧ strBytes "i5e" = strBytes "i5e" :=
  claim10_termination.2.1 3 ⟨strBytes "i5e", 0, false⟩ 105 (Item.Integer 5)
    ⟨strBytes "i5e", 3, false⟩ (by rfl)

end Yabel
